import Mathlib

/-!
Verification of the MPS quantum-circuit emulator core.

This file gives a shallow embedding of the tensor-network core
(src/crates/tn/src/mps.rs, src/crates/rng/src/lib.rs,
src/crates/quantum/src/{env,observables,measurement,noise,shot_estimator}.rs
and the overlap routine of src/bins/fidelity_sweep/src/main.rs) and proves
the specification claims about it.

Modelling conventions:
* `Complex64` floating-point scalars are embedded as exact complex rationals
  (`Cq`); rounding is abstracted away, exact comparisons (`== 0.0`, `< p`)
  become exact rational comparisons.
* External library primitives that the core calls but does not implement are
  parameters of the embedding: SHAKE-256 from the `sha3` crate (`Shake`),
  `faer`'s `thin_svd` (`SvdFn`), and `f64::sqrt`.
* Rust panics (out-of-range indexing, failed asserts) are modelled by
  `Option`: a function returns `none` exactly on the inputs where the source
  panics.
-/

/-- Complex scalar with exact rational components, embedding
`num_complex::Complex64`. -/
structure Cq where
  re : ℚ
  im : ℚ
deriving DecidableEq

namespace Cq

instance : Zero Cq := ⟨⟨0, 0⟩⟩
instance : One Cq := ⟨⟨1, 0⟩⟩
instance : Add Cq := ⟨fun a b => ⟨a.re + b.re, a.im + b.im⟩⟩
instance : Neg Cq := ⟨fun a => ⟨-a.re, -a.im⟩⟩
instance : Mul Cq := ⟨fun a b => ⟨a.re * b.re - a.im * b.im, a.re * b.im + a.im * b.re⟩⟩

/-- Embedding of a real (`f64`) scalar. -/
def ofRat (q : ℚ) : Cq := ⟨q, 0⟩

/-- Complex conjugation (`Complex64::conj`). -/
def conj (a : Cq) : Cq := ⟨a.re, -a.im⟩

/-- Componentwise division by a real scalar (`Complex64 / f64`). -/
def divRat (a : Cq) (q : ℚ) : Cq := ⟨a.re / q, a.im / q⟩

instance : CommRing Cq where
  add_assoc a b c := by
    have h1 : ∀ x y : Cq, (x + y).re = x.re + y.re := fun _ _ => rfl
    have h2 : ∀ x y : Cq, (x + y).im = x.im + y.im := fun _ _ => rfl
    refine congrArg₂ Cq.mk ?_ ?_ <;> simp only [h1, h2] <;> ring
  zero_add a := by
    have h1 : ∀ x y : Cq, (x + y).re = x.re + y.re := fun _ _ => rfl
    have h2 : ∀ x y : Cq, (x + y).im = x.im + y.im := fun _ _ => rfl
    have h3 : (0 : Cq).re = 0 := rfl
    have h4 : (0 : Cq).im = 0 := rfl
    refine congrArg₂ Cq.mk ?_ ?_ <;> simp only [h1, h2, h3, h4] <;> ring
  add_zero a := by
    have h1 : ∀ x y : Cq, (x + y).re = x.re + y.re := fun _ _ => rfl
    have h2 : ∀ x y : Cq, (x + y).im = x.im + y.im := fun _ _ => rfl
    have h3 : (0 : Cq).re = 0 := rfl
    have h4 : (0 : Cq).im = 0 := rfl
    refine congrArg₂ Cq.mk ?_ ?_ <;> simp only [h1, h2, h3, h4] <;> ring
  add_comm a b := by
    refine congrArg₂ Cq.mk ?_ ?_ <;> ring
  mul_assoc a b c := by
    have h1 : ∀ x y : Cq, (x * y).re = x.re * y.re - x.im * y.im := fun _ _ => rfl
    have h2 : ∀ x y : Cq, (x * y).im = x.re * y.im + x.im * y.re := fun _ _ => rfl
    refine congrArg₂ Cq.mk ?_ ?_ <;> simp only [h1, h2] <;> ring
  one_mul a := by
    have h1 : ∀ x y : Cq, (x * y).re = x.re * y.re - x.im * y.im := fun _ _ => rfl
    have h2 : ∀ x y : Cq, (x * y).im = x.re * y.im + x.im * y.re := fun _ _ => rfl
    have h3 : (1 : Cq).re = 1 := rfl
    have h4 : (1 : Cq).im = 0 := rfl
    refine congrArg₂ Cq.mk ?_ ?_ <;> simp only [h1, h2, h3, h4] <;> ring
  mul_one a := by
    have h1 : ∀ x y : Cq, (x * y).re = x.re * y.re - x.im * y.im := fun _ _ => rfl
    have h2 : ∀ x y : Cq, (x * y).im = x.re * y.im + x.im * y.re := fun _ _ => rfl
    have h3 : (1 : Cq).re = 1 := rfl
    have h4 : (1 : Cq).im = 0 := rfl
    refine congrArg₂ Cq.mk ?_ ?_ <;> simp only [h1, h2, h3, h4] <;> ring
  left_distrib a b c := by
    have h1 : ∀ x y : Cq, (x * y).re = x.re * y.re - x.im * y.im := fun _ _ => rfl
    have h2 : ∀ x y : Cq, (x * y).im = x.re * y.im + x.im * y.re := fun _ _ => rfl
    have h3 : ∀ x y : Cq, (x + y).re = x.re + y.re := fun _ _ => rfl
    have h4 : ∀ x y : Cq, (x + y).im = x.im + y.im := fun _ _ => rfl
    refine congrArg₂ Cq.mk ?_ ?_ <;> simp only [h1, h2, h3, h4] <;> ring
  right_distrib a b c := by
    have h1 : ∀ x y : Cq, (x * y).re = x.re * y.re - x.im * y.im := fun _ _ => rfl
    have h2 : ∀ x y : Cq, (x * y).im = x.re * y.im + x.im * y.re := fun _ _ => rfl
    have h3 : ∀ x y : Cq, (x + y).re = x.re + y.re := fun _ _ => rfl
    have h4 : ∀ x y : Cq, (x + y).im = x.im + y.im := fun _ _ => rfl
    refine congrArg₂ Cq.mk ?_ ?_ <;> simp only [h1, h2, h3, h4] <;> ring
  mul_comm a b := by
    refine congrArg₂ Cq.mk ?_ ?_ <;> ring
  zero_mul a := by
    have h1 : ∀ x y : Cq, (x * y).re = x.re * y.re - x.im * y.im := fun _ _ => rfl
    have h2 : ∀ x y : Cq, (x * y).im = x.re * y.im + x.im * y.re := fun _ _ => rfl
    have h3 : (0 : Cq).re = 0 := rfl
    have h4 : (0 : Cq).im = 0 := rfl
    refine congrArg₂ Cq.mk ?_ ?_ <;> simp only [h1, h2, h3, h4] <;> ring
  mul_zero a := by
    have h1 : ∀ x y : Cq, (x * y).re = x.re * y.re - x.im * y.im := fun _ _ => rfl
    have h2 : ∀ x y : Cq, (x * y).im = x.re * y.im + x.im * y.re := fun _ _ => rfl
    have h3 : (0 : Cq).re = 0 := rfl
    have h4 : (0 : Cq).im = 0 := rfl
    refine congrArg₂ Cq.mk ?_ ?_ <;> simp only [h1, h2, h3, h4] <;> ring
  neg_add_cancel a := by
    have h1 : ∀ x y : Cq, (x + y).re = x.re + y.re := fun _ _ => rfl
    have h2 : ∀ x y : Cq, (x + y).im = x.im + y.im := fun _ _ => rfl
    have h3 : ∀ x : Cq, (-x).re = -x.re := fun _ => rfl
    have h4 : ∀ x : Cq, (-x).im = -x.im := fun _ => rfl
    refine congrArg₂ Cq.mk ?_ ?_ <;> simp only [h1, h2, h3, h4] <;> ring
  nsmul := nsmulRec
  zsmul := zsmulRec

/-- Conjugation bundled as a ring homomorphism (used to push `conj` through
finite sums). -/
def conjHom : Cq →+* Cq where
  toFun := conj
  map_one' := rfl
  map_mul' a b := by
    have h1 : ∀ x y : Cq, (x * y).re = x.re * y.re - x.im * y.im := fun _ _ => rfl
    have h2 : ∀ x y : Cq, (x * y).im = x.re * y.im + x.im * y.re := fun _ _ => rfl
    have h3 : ∀ x : Cq, (conj x).re = x.re := fun _ => rfl
    have h4 : ∀ x : Cq, (conj x).im = -x.im := fun _ => rfl
    refine congrArg₂ Cq.mk ?_ ?_ <;> simp only [h1, h2, h3, h4] <;> ring
  map_zero' := rfl
  map_add' a b := by
    have h1 : ∀ x y : Cq, (x + y).re = x.re + y.re := fun _ _ => rfl
    have h2 : ∀ x y : Cq, (x + y).im = x.im + y.im := fun _ _ => rfl
    have h3 : ∀ x : Cq, (conj x).re = x.re := fun _ => rfl
    have h4 : ∀ x : Cq, (conj x).im = -x.im := fun _ => rfl
    refine congrArg₂ Cq.mk ?_ ?_ <;> simp only [h1, h2, h3, h4] <;> ring

/-- Real part bundled as an additive homomorphism. -/
def reHom : Cq →+ ℚ where
  toFun := re
  map_zero' := rfl
  map_add' a b := rfl

/-- Imaginary part bundled as an additive homomorphism. -/
def imHom : Cq →+ ℚ where
  toFun := im
  map_zero' := rfl
  map_add' a b := rfl

end Cq

/-- Rank-3 site tensor (`Tensor3` in src/crates/tn/src/mps.rs): row-major
storage with `r` varying fastest, then `p`, then `l`. -/
structure Tensor3 where
  data : List Cq
  dl : ℕ
  dp : ℕ
  dr : ℕ
deriving DecidableEq

namespace Tensor3

/-- `Tensor3::zeros`. -/
def zeros (dl dp dr : ℕ) : Tensor3 :=
  ⟨List.replicate (dl * dp * dr) 0, dl, dp, dr⟩

/-- Flat index `(l*dp + p)*dr + r` (`Tensor3::idx`). -/
def idx (t : Tensor3) (l p r : ℕ) : ℕ := (l * t.dp + p) * t.dr + r

/-- `Tensor3::get`.  The source bounds-checks; every access performed by the
operations below is in range for well-formed tensors. -/
def get (t : Tensor3) (l p r : ℕ) : Cq := t.data.getD (t.idx l p r) 0

/-- `Tensor3::set`. -/
def set (t : Tensor3) (l p r : ℕ) (v : Cq) : Tensor3 :=
  ⟨t.data.set (t.idx l p r) v, t.dl, t.dp, t.dr⟩

/-- The tensor whose `(l, p, r)` entry is `f l p r`: the net result of the
source's loops that write each entry of a fresh zero tensor exactly once. -/
def ofFun (dl dp dr : ℕ) (f : ℕ → ℕ → ℕ → Cq) : Tensor3 :=
  ⟨(List.range (dl * dp * dr)).map (fun i => f (i / (dp * dr)) (i / dr % dp) (i % dr)),
   dl, dp, dr⟩

end Tensor3

/-- Matrix-product state (`MPS` in src/crates/tn/src/mps.rs). -/
structure MPS where
  sites : List Tensor3
deriving DecidableEq

namespace MPS

/-- `MPS::new_zero`: the product state with every site `|0⟩`. -/
def new_zero (n : ℕ) : MPS :=
  ⟨List.replicate n ((Tensor3.zeros 1 2 1).set 0 0 0 1)⟩

/-- Site access `psi.sites[k]`; out-of-range access panics in the source and
is guarded wherever it can occur below. -/
def site (psi : MPS) (k : ℕ) : Tensor3 := psi.sites.getD k (Tensor3.zeros 0 0 0)

/-- Structural invariants of the MPS data model: non-empty chain, boundary
bonds of dimension 1, physical dimension 2 everywhere, and matching adjacent
bond dimensions. -/
def wf (psi : MPS) : Prop :=
  0 < psi.sites.length ∧
  (psi.site 0).dl = 1 ∧
  (psi.site (psi.sites.length - 1)).dr = 1 ∧
  (∀ i, i < psi.sites.length → (psi.site i).dp = 2) ∧
  (∀ i, i + 1 < psi.sites.length → (psi.site i).dr = (psi.site (i + 1)).dl)

instance wfDecidable (psi : MPS) : Decidable psi.wf := by
  unfold wf
  have h1 : Decidable (∀ i, i < psi.sites.length → (psi.site i).dp = 2) :=
    Nat.decidableBallLT _ (fun i _ => (psi.site i).dp = 2)
  have h2 : Decidable (∀ i, i + 1 < psi.sites.length →
      (psi.site i).dr = (psi.site (i + 1)).dl) := by
    refine decidable_of_iff
      (∀ i, i < psi.sites.length - 1 → (psi.site i).dr = (psi.site (i + 1)).dl) ?_
    constructor
    · intro h i hi
      exact h i (by omega)
    · intro h i hi
      exact h i (by omega)
  exact instDecidableAnd

/-- `MPS::apply_1q`: contract a 2×2 gate over the physical axis of site `k`.
The source writes the two physical rows of a fresh zero tensor, so entries
with `p ≥ 2` (impossible for qubit sites) stay zero.  `none` models the
out-of-range panic. -/
def apply_1q (psi : MPS) (k : ℕ) (u : ℕ → ℕ → Cq) : Option MPS :=
  if k < psi.sites.length then
    let s := psi.site k
    let out := Tensor3.ofFun s.dl s.dp s.dr (fun l p r =>
      if p < 2 then ∑ pp ∈ Finset.range 2, u p pp * s.get l pp r else 0)
    some ⟨psi.sites.set k out⟩
  else none

end MPS

/-- Gate matrix `pauli_x()` (src/crates/quantum/src/gates.rs). -/
def pauli_x : ℕ → ℕ → Cq := fun p q =>
  match p, q with
  | 0, 1 => 1
  | 1, 0 => 1
  | _, _ => 0

/-- Gate matrix `pauli_y()` (src/crates/quantum/src/gates.rs). -/
def pauli_y : ℕ → ℕ → Cq := fun p q =>
  match p, q with
  | 0, 1 => ⟨0, -1⟩
  | 1, 0 => ⟨0, 1⟩
  | _, _ => 0

/-- Gate matrix `pauli_z()` (src/crates/quantum/src/gates.rs). -/
def pauli_z : ℕ → ℕ → Cq := fun p q =>
  match p, q with
  | 0, 0 => 1
  | 1, 1 => ⟨-1, 0⟩
  | _, _ => 0

/-- Truncation policy `(max_bond, cutoff)` (the `tn` crate's `truncation`
module; constructed by struct literal throughout the repository). -/
structure Truncation where
  max_bond : ℕ
  cutoff : ℚ
deriving DecidableEq

/-- Output of `faer`'s `thin_svd` (an external library routine): the
diagonal of singular values (real parts, as read by the source) and
entrywise access to the two factor matrices. -/
structure SvdData where
  sigma : List ℚ
  uMat : ℕ → ℕ → Cq
  vMat : ℕ → ℕ → Cq

/-- Abstract SVD routine: matrix entries to SVD output.  The truncation and
reshape logic of `apply_2q_svd` is proved for every possible output. -/
def SvdFn := (ℕ → ℕ → Cq) → SvdData

/-- The Θ matrix of `apply_2q_svd`: entry `(row, col)` with
`row = l*2 + p1`, `col = p2*dr + r` accumulates
`Σ_{m,q1,q2} u[p1*2+p2][q1*2+q2] · a[l,q1,m] · b[m,q2,r]`. -/
def thetaMat (a b : Tensor3) (u : ℕ → ℕ → Cq) : ℕ → ℕ → Cq :=
  fun row col =>
    ∑ m ∈ Finset.range a.dr, ∑ q1 ∈ Finset.range 2, ∑ q2 ∈ Finset.range 2,
      u ((row % 2) * 2 + col / b.dr) (q1 * 2 + q2) *
        a.get (row / 2) q1 m * b.get m q2 (col % b.dr)

/-- The `kept` counting loop of `apply_2q_svd`: one increment per singular
value above `cutoff`, stopping at `max_bond`. -/
def keptCount (sigma : List ℚ) (cutoff : ℚ) (maxBond : ℕ) : ℕ :=
  sigma.foldl (fun kept sv => if cutoff < sv ∧ kept < maxBond then kept + 1 else kept) 0

namespace MPS

/-- `MPS::apply_2q_svd` parametrized by the SVD routine.  `none` models the
panics: `sites[k+1]` out of range, and (`s.read(i)` / `submatrix`) reading
more singular values than the SVD produced. -/
def apply_2q_svd (svdOf : SvdFn) (psi : MPS) (k : ℕ) (u : ℕ → ℕ → Cq)
    (trunc : Truncation) : Option MPS :=
  if k + 1 < psi.sites.length then
    let a := psi.site k
    let b := psi.site (k + 1)
    let dl := a.dl
    let dr := b.dr
    let svd := svdOf (thetaMat a b u)
    let kept0 := keptCount svd.sigma trunc.cutoff trunc.max_bond
    let kept := if kept0 = 0 then 1 else kept0
    if kept ≤ svd.sigma.length then
      let sVals := svd.sigma.take kept
      let new_a := Tensor3.ofFun dl 2 kept (fun l p m =>
        svd.uMat (l * 2 + p) m * Cq.ofRat (sVals.getD m 0))
      let new_b := Tensor3.ofFun kept 2 dr (fun m p r =>
        Cq.conj (svd.vMat (p * dr + r) m))
      some ⟨(psi.sites.set k new_a).set (k + 1) new_b⟩
    else none
  else none

end MPS

/-- Abstract interface of SHAKE-256 (the `sha3` crate, external to this
repository): concatenated input parts and requested output length to output
bytes. -/
def Shake := List (List ℕ) → ℕ → List ℕ

/-- Big-endian byte encoding of the step counter (`u64::to_be_bytes`). -/
def u64be (n : ℕ) : List ℕ :=
  [n / 2 ^ 56 % 256, n / 2 ^ 48 % 256, n / 2 ^ 40 % 256, n / 2 ^ 32 % 256,
   n / 2 ^ 24 % 256, n / 2 ^ 16 % 256, n / 2 ^ 8 % 256, n % 256]

/-- Big-endian byte decoding (`u64::from_be_bytes`). -/
def bytesToNat (bs : List ℕ) : ℕ := bs.foldl (fun acc b => acc * 256 + b) 0

/-- Context tag `b"QSIM"`. -/
def ctxQSIM : List ℕ := "QSIM".toList.map Char.toNat

/-- Context tag `b"SKIP"`. -/
def ctxSKIP : List ℕ := "SKIP".toList.map Char.toNat

/-- Context tag `b"OND_INIT"`. -/
def ctxONDINIT : List ℕ := "OND_INIT".toList.map Char.toNat

/-- Context tag `b"DEPOL_1Q"`. -/
def ctxDEPOL : List ℕ := "DEPOL_1Q".toList.map Char.toNat

/-- Context tag `b"MEASURE_Z"`. -/
def ctxMEASURE : List ℕ := "MEASURE_Z".toList.map Char.toNat

/-- Deterministic context-keyed RNG (`ONDRng` in src/crates/rng/src/lib.rs):
32 bytes of state plus a step counter. -/
structure ONDRng where
  state : List ℕ
  step : ℕ
deriving DecidableEq

namespace ONDRng

/-- `ONDRng::new`: initial state is the extendable hash of
`(seed, "OND_INIT")`. -/
def new (shake : Shake) (seed : List ℕ) : ONDRng :=
  ⟨shake [seed, ctxONDINIT] 32, 0⟩

/-- `ONDRng::next_f64`: increment the step, advance the state with context
`"QSIM"`, hash the new state with `ctx` into 8 output bytes, optionally mix
the state once more with `"SKIP"`, and return the output scaled into
`[0, 1]`.  The returned rational is the exact value `u64 / (2^64 − 1)`
whose `f64` rounding the source returns. -/
def next_f64 (shake : Shake) (rng : ONDRng) (ctx : List ℕ) : ℚ × ONDRng :=
  let step := rng.step + 1
  let nextState := shake [rng.state, u64be step, ctxQSIM] 32
  let out := shake [nextState, ctx] 8
  let finalState :=
    if nextState.headD 0 < 16 then shake [nextState, ctxSKIP] 32 else nextState
  (((bytesToNat out : ℚ) / ((2 ^ 64 - 1 : ℕ) : ℚ)), ⟨finalState, step⟩)

/-- The sequence of draws produced by consuming the context tags `ctxs` in
order. -/
def draws (shake : Shake) (rng : ONDRng) : List (List ℕ) → List ℚ
  | [] => []
  | c :: cs =>
    let res := next_f64 shake rng c
    res.1 :: draws shake res.2 cs

end ONDRng

/-- `depolarizing_1q` (src/crates/quantum/src/noise.rs). -/
def depolarizing_1q (shake : Shake) (psi : MPS) (k : ℕ) (p : ℚ) (rng : ONDRng) :
    Option (MPS × ONDRng) :=
  if p ≤ 0 then some (psi, rng)
  else
    let res := ONDRng.next_f64 shake rng ctxDEPOL
    let x := res.1
    let rng' := res.2
    if p ≤ x then some (psi, rng')
    else
      let r := x / p
      if r < 1 / 3 then (psi.apply_1q k pauli_x).map (fun q => (q, rng'))
      else if r < 2 / 3 then (psi.apply_1q k pauli_y).map (fun q => (q, rng'))
      else (psi.apply_1q k pauli_z).map (fun q => (q, rng'))

/-- The default tensor used for (always-guarded) out-of-range site reads. -/
def t0 : Tensor3 := Tensor3.zeros 0 0 0

/-- `left_env` (src/crates/quantum/src/env.rs): the double-layer environment
of the sites strictly left of `k`, flattened as `r * dr + r'`. -/
def left_env (sites : List Tensor3) (k : ℕ) : List Cq :=
  (List.range k).foldl (fun env i =>
    let a := sites.getD i t0
    (List.range (a.dr * a.dr)).map (fun j =>
      ∑ l ∈ Finset.range a.dl, ∑ lp ∈ Finset.range a.dl, ∑ p ∈ Finset.range a.dp,
        env.getD (l * a.dl + lp) 0 * a.get l p (j / a.dr) *
          Cq.conj (a.get lp p (j % a.dr))))
    [1]

/-- `right_env` (src/crates/quantum/src/env.rs): the double-layer
environment of the sites strictly right of `k`, flattened as `l * dl + l'`. -/
def right_env (sites : List Tensor3) (k : ℕ) : List Cq :=
  ((List.range' (k + 1) (sites.length - (k + 1))).reverse).foldl (fun env i =>
    let a := sites.getD i t0
    (List.range (a.dl * a.dl)).map (fun j =>
      ∑ r ∈ Finset.range a.dr, ∑ rp ∈ Finset.range a.dr, ∑ p ∈ Finset.range a.dp,
        a.get (j / a.dl) p r * Cq.conj (a.get (j % a.dl) p rp) *
          env.getD (r * a.dr + rp) 0))
    [1]

/-- `site_weight` (src/crates/quantum/src/observables.rs): the weight
`w_k(p)`, the real part of the double-layer contraction at site `k` with
physical index `p`, floored at 0. -/
def site_weight (psi : MPS) (k : ℕ) (p : ℕ) : ℚ :=
  let s := psi.site k
  let left := left_env psi.sites k
  let right := right_env psi.sites k
  let acc := ∑ l ∈ Finset.range s.dl, ∑ lp ∈ Finset.range s.dl,
    ∑ r ∈ Finset.range s.dr, ∑ rp ∈ Finset.range s.dr,
      left.getD (l * s.dl + lp) 0 * s.get l p r * Cq.conj (s.get lp p rp) *
        right.getD (r * s.dr + rp) 0
  if acc.re < 0 then 0 else acc.re

/-- `expect_z` (src/crates/quantum/src/observables.rs).  `none` models the
panics: `sites[k]` out of range and `assert!(s.dp == 2)`. -/
def expect_z (psi : MPS) (k : ℕ) : Option ℚ :=
  if k < psi.sites.length ∧ (psi.site k).dp = 2 then
    let w0 := site_weight psi k 0
    let w1 := site_weight psi k 1
    let denom := w0 + w1
    some (if denom = 0 then 0 else (w0 - w1) / denom)
  else none

/-- The per-outcome weights computed by `measure_z`
(src/crates/quantum/src/measurement.rs), floored at 0; the same double-layer
contraction as `site_weight`, one entry per physical index. -/
def measureProbs (psi : MPS) (k : ℕ) : List ℚ :=
  let s := psi.site k
  let left := left_env psi.sites k
  let right := right_env psi.sites k
  (List.range s.dp).map (fun p =>
    let acc := ∑ l ∈ Finset.range s.dl, ∑ lp ∈ Finset.range s.dl,
      ∑ r ∈ Finset.range s.dr, ∑ rp ∈ Finset.range s.dr,
        left.getD (l * s.dl + lp) 0 * s.get l p r * Cq.conj (s.get lp p rp) *
          right.getD (r * s.dr + rp) 0
    if acc.re < 0 then 0 else acc.re)

/-- The outcome-selection loop of `measure_z`: first index `p` with
`x < probs[p]`, subtracting skipped weights; `none` when the loop never
breaks (the source then keeps the initial value 0). -/
def selectLoop : List ℚ → ℚ → ℕ → Option ℕ
  | [], _, _ => none
  | w :: rest, x, i => if x < w then some i else selectLoop rest (x - w) (i + 1)

/-- The outcome chosen by `measure_z`, defaulting to 0 when no weight is
ever exceeded. -/
def selectOutcome (probs : List ℚ) (x : ℚ) : ℕ := (selectLoop probs x 0).getD 0

/-- `measure_z` (src/crates/quantum/src/measurement.rs), parametrized by
SHAKE-256 and `f64::sqrt`.  Returns the outcome, the (possibly collapsed)
state and the advanced RNG; `none` models the `sites[k]` panic. -/
def measure_z (shake : Shake) (sqrtf : ℚ → ℚ) (psi : MPS) (k : ℕ)
    (rng : ONDRng) : Option (ℕ × MPS × ONDRng) :=
  if k < psi.sites.length then
    let s := psi.site k
    let probs := measureProbs psi k
    let total := probs.foldl (fun acc w => acc + w) 0
    if total = 0 then some (0, psi, rng)
    else
      let res := ONDRng.next_f64 shake rng ctxMEASURE
      let x := res.1 * total
      let rng' := res.2
      let outcome := selectOutcome probs x
      let norm := sqrtf (probs.getD outcome 0)
      if norm = 0 then some (outcome, psi, rng')
      else
        let t := Tensor3.ofFun s.dl s.dp s.dr (fun l p r =>
          if p = outcome then (s.get l outcome r).divRat norm else 0)
        some (outcome, ⟨psi.sites.set k t⟩, rng')
  else none

/-- The shot loop of `estimate_z_shots`: each iteration measures a fresh
deep clone of `psi` and accumulates `±1`. -/
def zShotLoop (shake : Shake) (sqrtf : ℚ → ℚ) (psi : MPS) (k : ℕ) :
    ℕ → ℚ → ONDRng → Option (ℚ × ONDRng)
  | 0, sum, rng => some (sum, rng)
  | n + 1, sum, rng =>
    match measure_z shake sqrtf psi k rng with
    | none => none
    | some (m, _, rng') =>
      zShotLoop shake sqrtf psi k n (sum + if m = 0 then 1 else -1) rng'

/-- `estimate_z_shots` (src/crates/quantum/src/shot_estimator.rs). -/
def estimate_z_shots (shake : Shake) (sqrtf : ℚ → ℚ) (psi : MPS) (k : ℕ)
    (rng : ONDRng) (shots : ℕ) : Option (ℚ × ONDRng) :=
  if shots = 0 then some (0, rng)
  else
    (zShotLoop shake sqrtf psi k shots 0 rng).map (fun sr => (sr.1 / shots, sr.2))

/-- The shot loop of `estimate_zz_shots`: measure site `i`, then site `j` on
the already-collapsed clone, and accumulate the product of the `±1`
outcomes. -/
def zzShotLoop (shake : Shake) (sqrtf : ℚ → ℚ) (psi : MPS) (i j : ℕ) :
    ℕ → ℚ → ONDRng → Option (ℚ × ONDRng)
  | 0, sum, rng => some (sum, rng)
  | n + 1, sum, rng =>
    match measure_z shake sqrtf psi i rng with
    | none => none
    | some (mi, psi1, rng1) =>
      match measure_z shake sqrtf psi1 j rng1 with
      | none => none
      | some (mj, _, rng2) =>
        zzShotLoop shake sqrtf psi i j n
          (sum + (if mi = 0 then 1 else -1) * (if mj = 0 then 1 else -1)) rng2

/-- `estimate_zz_shots` (src/crates/quantum/src/shot_estimator.rs). -/
def estimate_zz_shots (shake : Shake) (sqrtf : ℚ → ℚ) (psi : MPS) (i j : ℕ)
    (rng : ONDRng) (shots : ℕ) : Option (ℚ × ONDRng) :=
  if shots = 0 then some (0, rng)
  else
    (zzShotLoop shake sqrtf psi i j shots 0 rng).map (fun sr => (sr.1 / shots, sr.2))

/-- One site update of the transfer vector in `overlap`
(src/bins/fidelity_sweep/src/main.rs):
`env'[ra, rb] = Σ_{la, lb} env[la, lb] · Σ_p conj(a[la,p,ra]) · b[lb,p,rb]`,
flattened as `ra * b.dr + rb`.  The source skips terms with `env[la,lb] = 0`,
which does not change the accumulated sums. -/
def overlapStep (sa sb : Tensor3) (env : List Cq) : List Cq :=
  (List.range (sa.dr * sb.dr)).map (fun j =>
    ∑ la ∈ Finset.range sa.dl, ∑ lb ∈ Finset.range sb.dl,
      env.getD (la * sb.dl + lb) 0 *
        ∑ p ∈ Finset.range sa.dp,
          Cq.conj (sa.get la p (j / sb.dr)) * sb.get lb p (j % sb.dr))

/-- The left-to-right sweep of `overlap` over the zipped site lists. -/
def overlapRun : List (Tensor3 × Tensor3) → List Cq → List Cq
  | [], env => env
  | st :: rest, env => overlapRun rest (overlapStep st.1 st.2 env)

/-- `overlap` (src/bins/fidelity_sweep/src/main.rs): `⟨a|b⟩`.  `none` models
the panics: the length-mismatch assert, and the write `env[0] = 1` into the
empty initial vector when both chains are empty. -/
def overlap (a b : MPS) : Option Cq :=
  if a.sites.length = b.sites.length ∧ a.sites ≠ [] then
    let init := (List.range ((a.site 0).dl * (b.site 0).dl)).map
      (fun j => if j = 0 then (1 : Cq) else 0)
    let env := overlapRun (a.sites.zip b.sites) init
    some (env.foldl (fun acc v => acc + v) 0)
  else none

/-- The RNG state after consuming the context tags `ctxs` in order. -/
def afterCtxs (shake : Shake) (rng : ONDRng) : List (List ℕ) → ONDRng
  | [] => rng
  | c :: cs => afterCtxs shake (ONDRng.next_f64 shake rng c).2 cs

/-- A chain of site tensors whose first left bond is `d`, with qubit
physical dimension and matching adjacent bonds: the recursive form of the
MPS invariants used for induction along the chain. -/
def chainFrom : ℕ → List Tensor3 → Prop
  | _, [] => True
  | d, t :: rest => t.dl = d ∧ t.dp = 2 ∧ chainFrom t.dr rest

/-- Two flattened transfer vectors of shapes `(da, db)` and `(db, da)` that
are conjugate transposes of each other. -/
def Mirror (da db : ℕ) (e1 e2 : List Cq) : Prop :=
  e1.length = da * db ∧ e2.length = db * da ∧
  ∀ ra rb, ra < da → rb < db →
    e1.getD (ra * db + rb) 0 = Cq.conj (e2.getD (rb * da + ra) 0)

/-- A flattened transfer vector of shape `(d, d)` that is a Gram matrix:
entry `(ra, rb)` is `Σ_w conj(F w ra) · F w rb`. -/
def RepGram (d : ℕ) (env : List Cq) : Prop :=
  ∃ m : ℕ, ∃ F : ℕ → ℕ → Cq,
    env.length = d * d ∧
    ∀ ra rb, ra < d → rb < d →
      env.getD (ra * d + rb) 0 =
        ∑ w ∈ Finset.range m, Cq.conj (F w ra) * F w rb

/-- A concrete computable stand-in for SHAKE-256, used to instantiate the
abstract hash in closed counterexamples; its only relevant feature is that
its output depends on all of its input parts. -/
def shakeStub : Shake := fun parts n =>
  let h := parts.foldl
    (fun acc part => part.foldl (fun a b => (a * 131 + b + 7) % 251) (acc + 13)) 5
  (List.range n).map (fun i => (h + i * 17) % 256)

/-- A stand-in hash whose every output byte is 255, so that `next_f64`
returns exactly 1. -/
def shakeMax : Shake := fun _ n => List.replicate n 255

/-- A concrete stand-in SVD output, used in closed counterexamples. -/
def svdStub : SvdFn := fun _ => ⟨[1], fun _ _ => 0, fun _ _ => 0⟩

/-- A stand-in for `f64::sqrt` that is exact at 0 (the only property of
`sqrt` the guarded branches rely on). -/
def sqrt0 : ℚ → ℚ := fun _ => 0

/-- The kept singular-value count in the specification's wording:
`min(max_bond, #{i : σ_i > cutoff})`, except that a count of 0 keeps one. -/
def keptSpec (sigma : List ℚ) (cutoff : ℚ) (maxBond : ℕ) : ℕ :=
  if sigma.countP (fun sv => decide (cutoff < sv)) = 0 then 1
  else min maxBond (sigma.countP (fun sv => decide (cutoff < sv)))

attribute [local semireducible] Rat.add Rat.mul Rat.inv Rat.sub

theorem Cq.add_re (x y : Cq) : (x + y).re = x.re + y.re := rfl

theorem Cq.add_im (x y : Cq) : (x + y).im = x.im + y.im := rfl

theorem Cq.mul_re (x y : Cq) : (x * y).re = x.re * y.re - x.im * y.im := rfl

theorem Cq.mul_im (x y : Cq) : (x * y).im = x.re * y.im + x.im * y.re := rfl

theorem Cq.conj_re (x : Cq) : (Cq.conj x).re = x.re := rfl

theorem Cq.conj_im (x : Cq) : (Cq.conj x).im = -x.im := rfl

theorem Cq.zero_re : (0 : Cq).re = 0 := rfl

theorem Cq.zero_im : (0 : Cq).im = 0 := rfl

theorem Cq.conj_conj (a : Cq) : Cq.conj (Cq.conj a) = a := by
  cases a
  simp [Cq.conj]

theorem Cq.conj_mul (a b : Cq) : Cq.conj (a * b) = Cq.conj a * Cq.conj b :=
  Cq.conjHom.map_mul a b

theorem Cq.conj_sum {α : Type} (s : Finset α) (f : α → Cq) :
    Cq.conj (∑ x ∈ s, f x) = ∑ x ∈ s, Cq.conj (f x) :=
  map_sum Cq.conjHom f s

theorem Cq.re_sum {α : Type} (s : Finset α) (f : α → Cq) :
    (∑ x ∈ s, f x).re = ∑ x ∈ s, (f x).re :=
  map_sum Cq.reHom f s

theorem Cq.im_sum {α : Type} (s : Finset α) (f : α → Cq) :
    (∑ x ∈ s, f x).im = ∑ x ∈ s, (f x).im :=
  map_sum Cq.imHom f s

theorem Cq.conj_mul_self_re (z : Cq) : (Cq.conj z * z).re = z.re * z.re + z.im * z.im := by
  rw [Cq.mul_re, Cq.conj_re, Cq.conj_im]
  ring

theorem Cq.conj_mul_self_im (z : Cq) : (Cq.conj z * z).im = 0 := by
  rw [Cq.mul_im, Cq.conj_re, Cq.conj_im]
  ring

theorem getD_map_range (n : ℕ) (f : ℕ → Cq) (i : ℕ) :
    ((List.range n).map f).getD i 0 = if i < n then f i else 0 := by
  by_cases h : i < n
  · rw [List.getD_eq_getElem?_getD, List.getElem?_map, List.getElem?_range h]
    simp [h]
  · rw [List.getD_eq_getElem?_getD, List.getElem?_eq_none (by simpa using Nat.le_of_not_lt h)]
    simp [h]

theorem pair_decode_div (n ra rb : ℕ) (hb : rb < n) : (ra * n + rb) / n = ra := by
  rw [Nat.mul_comm ra n, Nat.mul_add_div (Nat.lt_of_le_of_lt (Nat.zero_le rb) hb) ra rb,
    Nat.div_eq_of_lt hb, Nat.add_zero]

theorem pair_decode_mod (n ra rb : ℕ) (hb : rb < n) : (ra * n + rb) % n = rb := by
  rw [Nat.mul_comm ra n, Nat.mul_add_mod n ra rb, Nat.mod_eq_of_lt hb]

theorem pair_encode_lt (m n ra rb : ℕ) (ha : ra < m) (hb : rb < n) :
    ra * n + rb < m * n := by
  calc ra * n + rb < ra * n + n := by omega
  _ = (ra + 1) * n := by ring
  _ ≤ m * n := Nat.mul_le_mul_right n ha

theorem foldl_add_from (e : List Cq) (z : Cq) :
    e.foldl (fun acc v => acc + v) z = z + ∑ i ∈ Finset.range e.length, e.getD i 0 := by
  induction e generalizing z with
  | nil => simp
  | cons a e ih =>
    show e.foldl _ (z + a) = _
    rw [ih (z + a)]
    rw [List.length_cons, Finset.sum_range_succ']
    simp only [List.getD_cons_succ, List.getD_cons_zero]
    ring

theorem foldl_add_eq_sum (e : List Cq) :
    e.foldl (fun acc v => acc + v) 0 = ∑ i ∈ Finset.range e.length, e.getD i 0 := by
  rw [foldl_add_from]
  ring

theorem foldl_add_from_rat (e : List ℚ) (z : ℚ) :
    e.foldl (fun acc v => acc + v) z = z + ∑ i ∈ Finset.range e.length, e.getD i 0 := by
  induction e generalizing z with
  | nil => simp
  | cons a e ih =>
    show e.foldl _ (z + a) = _
    rw [ih (z + a)]
    rw [List.length_cons, Finset.sum_range_succ']
    simp only [List.getD_cons_succ, List.getD_cons_zero]
    ring

theorem sum_range_mul_eq (m n : ℕ) (f : ℕ → Cq) :
    ∑ i ∈ Finset.range (m * n), f i =
      ∑ a ∈ Finset.range m, ∑ b ∈ Finset.range n, f (a * n + b) := by
  induction m with
  | zero => simp
  | succ m ih =>
    have hmn : (m + 1) * n = m * n + n := by ring
    rw [hmn, Finset.sum_range_add, ih, Finset.sum_range_succ]

theorem sum_range_mul_eq_rat (m n : ℕ) (f : ℕ → ℚ) :
    ∑ i ∈ Finset.range (m * n), f i =
      ∑ a ∈ Finset.range m, ∑ b ∈ Finset.range n, f (a * n + b) := by
  induction m with
  | zero => simp
  | succ m ih =>
    have hmn : (m + 1) * n = m * n + n := by ring
    rw [hmn, Finset.sum_range_add, ih, Finset.sum_range_succ]

theorem getD_set_self (l : List Tensor3) (k : ℕ) (t d : Tensor3) (h : k < l.length) :
    (l.set k t).getD k d = t := by
  rw [List.getD_eq_getElem?_getD, List.getElem?_set]
  simp [h]

theorem getD_set_ne (l : List Tensor3) (k i : ℕ) (t d : Tensor3) (h : k ≠ i) :
    (l.set k t).getD i d = l.getD i d := by
  rw [List.getD_eq_getElem?_getD, List.getElem?_set, if_neg h, ← List.getD_eq_getElem?_getD]

theorem keptCount_go (sigma : List ℚ) (c : ℚ) (mb : ℕ) :
    ∀ acc, acc ≤ mb →
      sigma.foldl (fun kept sv => if c < sv ∧ kept < mb then kept + 1 else kept) acc
        = min mb (acc + sigma.countP (fun sv => decide (c < sv))) := by
  induction sigma with
  | nil =>
    intro acc h
    simp [Nat.min_eq_right h]
  | cons sv rest ih =>
    intro acc h
    show rest.foldl _ (if c < sv ∧ acc < mb then acc + 1 else acc) = _
    rw [List.countP_cons]
    by_cases hc : c < sv
    · by_cases hlt : acc < mb
      · rw [if_pos ⟨hc, hlt⟩, ih (acc + 1) hlt]
        simp only [hc]
        simp only [decide_eq_true_eq, if_pos trivial]
        omega
      · rw [if_neg (by tauto), ih acc h]
        simp only [hc]
        simp only [decide_eq_true_eq, if_pos trivial]
        omega
    · rw [if_neg (by tauto), ih acc h]
      simp only [hc]
      simp only [decide_eq_true_eq, if_neg (fun hf => hf)]
      omega

theorem keptCount_eq (sigma : List ℚ) (c : ℚ) (mb : ℕ) :
    keptCount sigma c mb = min mb (sigma.countP (fun sv => decide (c < sv))) := by
  have := keptCount_go sigma c mb 0 (Nat.zero_le mb)
  simpa [keptCount] using this

theorem site_set_single (psi : MPS) (k : ℕ) (t : Tensor3) (hk : k < psi.sites.length) :
    ∀ i, (MPS.mk (psi.sites.set k t)).site i = if k = i then t else psi.site i := by
  intro i
  by_cases hik : k = i
  · subst hik
    rw [if_pos rfl]
    exact getD_set_self _ _ _ _ hk
  · rw [if_neg hik]
    exact getD_set_ne _ _ _ _ _ hik

theorem site_set_pair (psi : MPS) (k : ℕ) (ta tb : Tensor3) (hk : k + 1 < psi.sites.length) :
    ∀ i, (MPS.mk ((psi.sites.set k ta).set (k + 1) tb)).site i =
      if k + 1 = i then tb else if k = i then ta else psi.site i := by
  intro i
  have hlenset : (psi.sites.set k ta).length = psi.sites.length := List.length_set _ _ _
  by_cases h1 : k + 1 = i
  · subst h1
    rw [if_pos rfl]
    exact getD_set_self _ _ _ _ (by omega)
  · rw [if_neg h1]
    show ((psi.sites.set k ta).set (k + 1) tb).getD i _ = _
    rw [getD_set_ne _ _ _ _ _ h1]
    by_cases h2 : k = i
    · subst h2
      rw [if_pos rfl]
      exact getD_set_self _ _ _ _ (by omega)
    · rw [if_neg h2]
      exact getD_set_ne _ _ _ _ _ h2

theorem wf_set_single (psi : MPS) (k : ℕ) (t : Tensor3)
    (hk : k < psi.sites.length)
    (hdl : t.dl = (psi.site k).dl) (hdp : t.dp = 2) (hdr : t.dr = (psi.site k).dr)
    (h : psi.wf) : (MPS.mk (psi.sites.set k t)).wf := by
  obtain ⟨hlen, h0, hlast, hphys, hadj⟩ := h
  have hs := site_set_single psi k t hk
  have hlen' : (MPS.mk (psi.sites.set k t)).sites.length = psi.sites.length := by
    simp
  refine ⟨by omega, ?_, ?_, ?_, ?_⟩
  · rw [hs 0]
    by_cases h0k : k = 0
    · rw [if_pos h0k, hdl, h0k]
      exact h0
    · rw [if_neg h0k]
      exact h0
  · rw [hlen', hs (psi.sites.length - 1)]
    by_cases hlk : k = psi.sites.length - 1
    · rw [if_pos hlk, hdr, hlk]
      exact hlast
    · rw [if_neg hlk]
      exact hlast
  · intro i hi
    rw [hlen'] at hi
    rw [hs i]
    by_cases hik : k = i
    · rw [if_pos hik]
      exact hdp
    · rw [if_neg hik]
      exact hphys i hi
  · intro i hi
    rw [hlen'] at hi
    rw [hs i, hs (i + 1)]
    by_cases hik : k = i
    · rw [if_pos hik, if_neg (by omega)]
      rw [hdr, hik]
      exact hadj i hi
    · rw [if_neg hik]
      by_cases hik1 : k = i + 1
      · rw [if_pos hik1, hdl, hik1]
        exact hadj i hi
      · rw [if_neg hik1]
        exact hadj i hi

theorem wf_set_pair (psi : MPS) (k : ℕ) (ta tb : Tensor3)
    (hk : k + 1 < psi.sites.length)
    (hta_dl : ta.dl = (psi.site k).dl) (hta_dp : ta.dp = 2)
    (htb_dr : tb.dr = (psi.site (k + 1)).dr) (htb_dp : tb.dp = 2)
    (hbond : ta.dr = tb.dl)
    (h : psi.wf) : (MPS.mk ((psi.sites.set k ta).set (k + 1) tb)).wf := by
  obtain ⟨hlen, h0, hlast, hphys, hadj⟩ := h
  have hs := site_set_pair psi k ta tb hk
  have hlen' : (MPS.mk ((psi.sites.set k ta).set (k + 1) tb)).sites.length
      = psi.sites.length := by
    simp
  refine ⟨by omega, ?_, ?_, ?_, ?_⟩
  · rw [hs 0, if_neg (by omega)]
    by_cases h0k : k = 0
    · rw [if_pos h0k, hta_dl, h0k]
      exact h0
    · rw [if_neg h0k]
      exact h0
  · rw [hlen', hs (psi.sites.length - 1)]
    by_cases hlk : k + 1 = psi.sites.length - 1
    · rw [if_pos hlk, htb_dr, hlk]
      exact hlast
    · rw [if_neg hlk, if_neg (by omega)]
      exact hlast
  · intro i hi
    rw [hlen'] at hi
    rw [hs i]
    by_cases h1 : k + 1 = i
    · rw [if_pos h1]
      exact htb_dp
    · rw [if_neg h1]
      by_cases h2 : k = i
      · rw [if_pos h2]
        exact hta_dp
      · rw [if_neg h2]
        exact hphys i hi
  · intro i hi
    rw [hlen'] at hi
    rw [hs i, hs (i + 1)]
    by_cases hik : k = i
    · rw [if_neg (show ¬(k + 1 = i) by omega), if_pos hik,
        if_pos (show k + 1 = i + 1 by omega)]
      exact hbond
    · by_cases hik1 : k = i + 1
      · rw [if_neg (show ¬(k + 1 = i) by omega), if_neg hik,
          if_neg (show ¬(k + 1 = i + 1) by omega), if_pos hik1, hta_dl, hik1]
        exact hadj i hi
      · by_cases hk1i : k + 1 = i
        · rw [if_pos hk1i, if_neg (show ¬(k + 1 = i + 1) by omega),
            if_neg (show ¬(k = i + 1) by omega), htb_dr, hk1i]
          exact hadj i hi
        · rw [if_neg hk1i, if_neg hik, if_neg (show ¬(k + 1 = i + 1) by omega),
            if_neg (show ¬(k = i + 1) by omega)]
          exact hadj i hi

theorem apply_1q_eq (psi : MPS) (k : ℕ) (u : ℕ → ℕ → Cq)
    (hk : k < psi.sites.length) :
    psi.apply_1q k u = some (MPS.mk (psi.sites.set k
      (Tensor3.ofFun (psi.site k).dl (psi.site k).dp (psi.site k).dr
        (fun l p r =>
          if p < 2 then ∑ pp ∈ Finset.range 2, u p pp * (psi.site k).get l pp r
          else 0)))) := by
  unfold MPS.apply_1q
  rw [if_pos hk]

theorem apply_2q_svd_characterize (svdOf : SvdFn) (psi : MPS) (k : ℕ)
    (u : ℕ → ℕ → Cq) (trunc : Truncation) (hk : k + 1 < psi.sites.length) :
    MPS.apply_2q_svd svdOf psi k u trunc =
      (if (if keptCount (svdOf (thetaMat (psi.site k) (psi.site (k + 1)) u)).sigma
              trunc.cutoff trunc.max_bond = 0 then 1
           else keptCount (svdOf (thetaMat (psi.site k) (psi.site (k + 1)) u)).sigma
              trunc.cutoff trunc.max_bond)
          ≤ (svdOf (thetaMat (psi.site k) (psi.site (k + 1)) u)).sigma.length then
        some (MPS.mk ((psi.sites.set k
          (Tensor3.ofFun (psi.site k).dl 2
            (if keptCount (svdOf (thetaMat (psi.site k) (psi.site (k + 1)) u)).sigma
                trunc.cutoff trunc.max_bond = 0 then 1
             else keptCount (svdOf (thetaMat (psi.site k) (psi.site (k + 1)) u)).sigma
                trunc.cutoff trunc.max_bond)
            (fun l p m =>
              (svdOf (thetaMat (psi.site k) (psi.site (k + 1)) u)).uMat (l * 2 + p) m *
                Cq.ofRat (((svdOf (thetaMat (psi.site k) (psi.site (k + 1)) u)).sigma.take
                  (if keptCount (svdOf (thetaMat (psi.site k) (psi.site (k + 1)) u)).sigma
                      trunc.cutoff trunc.max_bond = 0 then 1
                   else keptCount (svdOf (thetaMat (psi.site k) (psi.site (k + 1)) u)).sigma
                      trunc.cutoff trunc.max_bond)).getD m 0)))).set (k + 1)
          (Tensor3.ofFun
            (if keptCount (svdOf (thetaMat (psi.site k) (psi.site (k + 1)) u)).sigma
                trunc.cutoff trunc.max_bond = 0 then 1
             else keptCount (svdOf (thetaMat (psi.site k) (psi.site (k + 1)) u)).sigma
                trunc.cutoff trunc.max_bond)
            2 (psi.site (k + 1)).dr
            (fun m p r =>
              Cq.conj ((svdOf (thetaMat (psi.site k) (psi.site (k + 1)) u)).vMat
                (p * (psi.site (k + 1)).dr + r) m)))))
      else none) := by
  unfold MPS.apply_2q_svd
  rw [if_pos hk]

/-- C10: for every MPS, site index, and RNG state, `estimate_z_shots` and
`estimate_zz_shots` called with `shots = 0` return exactly 0 and consume no
draws from the RNG (the RNG is returned unchanged). -/
theorem shot_estimators_zero_shots :
    ∀ (shake : Shake) (sqrtf : ℚ → ℚ) (psi : MPS) (k i j : ℕ) (rng : ONDRng),
      estimate_z_shots shake sqrtf psi k rng 0 = some (0, rng) ∧
      estimate_zz_shots shake sqrtf psi i j rng 0 = some (0, rng) := by
  intro shake sqrtf psi k i j rng
  constructor
  · simp [estimate_z_shots]
  · simp [estimate_zz_shots]

/-- C7: when the total weight computed by `measure_z` is 0, the function
returns outcome 0 and leaves the state (and, in fact, the RNG) unchanged:
no collapse is performed. -/
theorem measure_z_zero_total_noop :
    ∀ (shake : Shake) (sqrtf : ℚ → ℚ) (psi : MPS) (k : ℕ) (rng : ONDRng),
      k < psi.sites.length →
      (measureProbs psi k).foldl (fun acc w => acc + w) 0 = 0 →
      measure_z shake sqrtf psi k rng = some (0, psi, rng) := by
  intro shake sqrtf psi k rng hk htot
  simp only [measure_z, if_pos hk]
  rw [if_pos htot]

/-- C7 witness: on the one-site MPS whose tensor is identically zero, the
total weight is 0 and `measure_z` returns outcome 0 with the state and RNG
unchanged. -/
theorem measure_z_zero_total_noop_witness :
    0 < (MPS.mk [Tensor3.zeros 1 2 1]).sites.length ∧
    (measureProbs (MPS.mk [Tensor3.zeros 1 2 1]) 0).foldl (fun acc w => acc + w) 0 = 0 ∧
    measure_z shakeStub sqrt0 (MPS.mk [Tensor3.zeros 1 2 1]) 0 (ONDRng.mk [] 0) =
      some (0, MPS.mk [Tensor3.zeros 1 2 1], ONDRng.mk [] 0) :=
  ⟨by decide, by decide,
    measure_z_zero_total_noop shakeStub sqrt0 (MPS.mk [Tensor3.zeros 1 2 1]) 0
      (ONDRng.mk [] 0) (by decide) (by decide)⟩

/-- C9: when the total weight is strictly positive but the weight of the
selected outcome is exactly 0 (so, `sqrt` being exact at 0, the computed
norm is 0), `measure_z` returns that outcome without replacing the site
tensor: the division by `sqrt(w)` is guarded and never executed with a zero
divisor. -/
theorem measure_z_zero_weight_guard :
    ∀ (shake : Shake) (sqrtf : ℚ → ℚ) (psi : MPS) (k : ℕ) (rng : ONDRng),
      k < psi.sites.length →
      sqrtf 0 = 0 →
      0 < (measureProbs psi k).foldl (fun acc w => acc + w) 0 →
      (measureProbs psi k).getD
        (selectOutcome (measureProbs psi k)
          ((ONDRng.next_f64 shake rng ctxMEASURE).1 *
            (measureProbs psi k).foldl (fun acc w => acc + w) 0)) 0 = 0 →
      measure_z shake sqrtf psi k rng =
        some (selectOutcome (measureProbs psi k)
            ((ONDRng.next_f64 shake rng ctxMEASURE).1 *
              (measureProbs psi k).foldl (fun acc w => acc + w) 0),
          psi, (ONDRng.next_f64 shake rng ctxMEASURE).2) := by
  intro shake sqrtf psi k rng hk hs htot hout
  simp only [measure_z, if_pos hk]
  rw [if_neg (by exact ne_of_gt htot)]
  rw [hout, hs]
  rw [if_pos rfl]

/-- C9 witness: on the one-site state `|1⟩` with a hash forcing a draw of
exactly 1, the selection loop falls through to the default outcome 0 whose
weight is 0, and `measure_z` returns without collapsing. -/
theorem measure_z_zero_weight_guard_witness :
    0 < (MPS.mk [(Tensor3.zeros 1 2 1).set 0 1 0 1]).sites.length ∧
    sqrt0 0 = 0 ∧
    0 < (measureProbs (MPS.mk [(Tensor3.zeros 1 2 1).set 0 1 0 1]) 0).foldl
      (fun acc w => acc + w) 0 ∧
    (measureProbs (MPS.mk [(Tensor3.zeros 1 2 1).set 0 1 0 1]) 0).getD
      (selectOutcome (measureProbs (MPS.mk [(Tensor3.zeros 1 2 1).set 0 1 0 1]) 0)
        ((ONDRng.next_f64 shakeMax (ONDRng.mk [] 0) ctxMEASURE).1 *
          (measureProbs (MPS.mk [(Tensor3.zeros 1 2 1).set 0 1 0 1]) 0).foldl
            (fun acc w => acc + w) 0)) 0 = 0 ∧
    measure_z shakeMax sqrt0 (MPS.mk [(Tensor3.zeros 1 2 1).set 0 1 0 1]) 0
        (ONDRng.mk [] 0) =
      some (selectOutcome (measureProbs (MPS.mk [(Tensor3.zeros 1 2 1).set 0 1 0 1]) 0)
          ((ONDRng.next_f64 shakeMax (ONDRng.mk [] 0) ctxMEASURE).1 *
            (measureProbs (MPS.mk [(Tensor3.zeros 1 2 1).set 0 1 0 1]) 0).foldl
              (fun acc w => acc + w) 0),
        MPS.mk [(Tensor3.zeros 1 2 1).set 0 1 0 1],
        (ONDRng.next_f64 shakeMax (ONDRng.mk [] 0) ctxMEASURE).2) :=
  ⟨by decide, rfl, by decide, by decide,
    measure_z_zero_weight_guard shakeMax sqrt0
      (MPS.mk [(Tensor3.zeros 1 2 1).set 0 1 0 1]) 0 (ONDRng.mk [] 0)
      (by decide) rfl (by decide) (by decide)⟩

/-- C6: for an MPS with physical dimension 2 at a valid site `k`,
`expect_z` returns `(w_k(0) − w_k(1)) / (w_k(0) + w_k(1))` with the weights
given by `site_weight` (the double-layer contraction floored at 0), and
exactly 0 when the denominator is exactly 0. -/
theorem expect_z_formula :
    ∀ (psi : MPS) (k : ℕ),
      k < psi.sites.length →
      (psi.site k).dp = 2 →
      expect_z psi k = some
        (if site_weight psi k 0 + site_weight psi k 1 = 0 then 0
         else (site_weight psi k 0 - site_weight psi k 1) /
           (site_weight psi k 0 + site_weight psi k 1)) := by
  intro psi k hk hdp
  simp only [expect_z, if_pos (And.intro hk hdp)]

/-- C6 witness: on the one-qubit product state `|0⟩`, the weights are
`w(0) = 1`, `w(1) = 0` and `expect_z` returns 1. -/
theorem expect_z_formula_witness :
    0 < (MPS.new_zero 1).sites.length ∧
    ((MPS.new_zero 1).site 0).dp = 2 ∧
    expect_z (MPS.new_zero 1) 0 = some
      (if site_weight (MPS.new_zero 1) 0 0 + site_weight (MPS.new_zero 1) 0 1 = 0 then 0
       else (site_weight (MPS.new_zero 1) 0 0 - site_weight (MPS.new_zero 1) 0 1) /
         (site_weight (MPS.new_zero 1) 0 0 + site_weight (MPS.new_zero 1) 0 1)) ∧
    expect_z (MPS.new_zero 1) 0 = some 1 :=
  ⟨by decide, by decide,
    expect_z_formula (MPS.new_zero 1) 0 (by decide) (by decide), by decide⟩

/-- C4 counterexample: at `p = 0` (which lies in `[0, 1]`),
`depolarizing_1q` returns with the RNG unchanged, although one draw with
context `"DEPOL_1Q"` would have advanced it: the claim that exactly one
value is drawn for every `p ∈ [0, 1]` is false at `p = 0`. -/
theorem depolarizing_1q_draw_counterexample :
    depolarizing_1q shakeStub (MPS.new_zero 1) 0 0 (ONDRng.new shakeStub [7]) =
      some (MPS.new_zero 1, ONDRng.new shakeStub [7]) ∧
    (ONDRng.next_f64 shakeStub (ONDRng.new shakeStub [7]) ctxDEPOL).2 ≠
      ONDRng.new shakeStub [7] := by
  constructor
  · rfl
  · intro h
    exact Nat.one_ne_zero (congrArg ONDRng.step h)

/-- C4 (amended): for `p ≤ 0`, `depolarizing_1q` returns the state and the
RNG unchanged, consuming no draw; for `0 < p` it draws exactly one value
`x` with context `"DEPOL_1Q"`, leaves the state unchanged when `x ≥ p`, and
otherwise applies Pauli X if `x/p < 1/3`, Pauli Y if `1/3 ≤ x/p < 2/3`, and
Pauli Z otherwise. -/
theorem depolarizing_1q_spec :
    ∀ (shake : Shake) (psi : MPS) (k : ℕ) (p : ℚ) (rng : ONDRng),
      (p ≤ 0 → depolarizing_1q shake psi k p rng = some (psi, rng)) ∧
      (0 < p →
        depolarizing_1q shake psi k p rng =
          (if p ≤ (ONDRng.next_f64 shake rng ctxDEPOL).1 then
            some (psi, (ONDRng.next_f64 shake rng ctxDEPOL).2)
          else if (ONDRng.next_f64 shake rng ctxDEPOL).1 / p < 1 / 3 then
            (psi.apply_1q k pauli_x).map
              (fun q => (q, (ONDRng.next_f64 shake rng ctxDEPOL).2))
          else if (ONDRng.next_f64 shake rng ctxDEPOL).1 / p < 2 / 3 then
            (psi.apply_1q k pauli_y).map
              (fun q => (q, (ONDRng.next_f64 shake rng ctxDEPOL).2))
          else
            (psi.apply_1q k pauli_z).map
              (fun q => (q, (ONDRng.next_f64 shake rng ctxDEPOL).2)))) := by
  intro shake psi k p rng
  constructor
  · intro hp
    simp only [depolarizing_1q, if_pos hp]
  · intro hp
    simp only [depolarizing_1q, if_neg (not_le.mpr hp)]

/-- C4 witness: at `p = 1/2` with the all-255 hash (draw exactly 1 ≥ p),
the amended theorem applies and the channel is a no-op that consumed one
draw. -/
theorem depolarizing_1q_spec_witness :
    ((0 : ℚ) < 1 / 2) ∧
    ((0 : ℚ) ≤ 0) ∧
    depolarizing_1q shakeMax (MPS.new_zero 1) 0 (1 / 2) (ONDRng.mk [] 0) =
      (if (1 : ℚ) / 2 ≤ (ONDRng.next_f64 shakeMax (ONDRng.mk [] 0) ctxDEPOL).1 then
        some (MPS.new_zero 1, (ONDRng.next_f64 shakeMax (ONDRng.mk [] 0) ctxDEPOL).2)
      else if (ONDRng.next_f64 shakeMax (ONDRng.mk [] 0) ctxDEPOL).1 / (1 / 2) < 1 / 3 then
        ((MPS.new_zero 1).apply_1q 0 pauli_x).map
          (fun q => (q, (ONDRng.next_f64 shakeMax (ONDRng.mk [] 0) ctxDEPOL).2))
      else if (ONDRng.next_f64 shakeMax (ONDRng.mk [] 0) ctxDEPOL).1 / (1 / 2) < 2 / 3 then
        ((MPS.new_zero 1).apply_1q 0 pauli_y).map
          (fun q => (q, (ONDRng.next_f64 shakeMax (ONDRng.mk [] 0) ctxDEPOL).2))
      else
        ((MPS.new_zero 1).apply_1q 0 pauli_z).map
          (fun q => (q, (ONDRng.next_f64 shakeMax (ONDRng.mk [] 0) ctxDEPOL).2))) ∧
    depolarizing_1q shakeMax (MPS.new_zero 1) 0 0 (ONDRng.mk [] 0) =
      some (MPS.new_zero 1, ONDRng.mk [] 0) :=
  ⟨by decide, le_refl 0,
    (depolarizing_1q_spec shakeMax (MPS.new_zero 1) 0 (1 / 2) (ONDRng.mk [] 0)).2
      (by decide),
    (depolarizing_1q_spec shakeMax (MPS.new_zero 1) 0 0 (ONDRng.mk [] 0)).1 (le_refl 0)⟩

/-- C5 counterexample: calling `apply_2q_svd` with `max_bond = 0` on a
valid neighboring pair does not panic: it returns a new state (with one
singular value kept), so the claim that it fails loudly is false. -/
theorem apply_2q_svd_max_bond_zero_counterexample :
    (MPS.apply_2q_svd svdStub (MPS.new_zero 2) 0 (fun _ _ => 0)
      (Truncation.mk 0 0)).isSome = true := by
  decide

/-- C5 (amended): `apply_2q_svd` with `max_bond = 0` does not fail; the
kept count comes out 0 and is bumped to 1 exactly as in the
all-singular-values-below-cutoff case, so the call succeeds and the new
bond has dimension 1. -/
theorem apply_2q_svd_max_bond_zero :
    ∀ (svdOf : SvdFn) (psi : MPS) (k : ℕ) (u : ℕ → ℕ → Cq) (cutoff : ℚ),
      k + 1 < psi.sites.length →
      1 ≤ (svdOf (thetaMat (psi.site k) (psi.site (k + 1)) u)).sigma.length →
      ∃ psi', MPS.apply_2q_svd svdOf psi k u ⟨0, cutoff⟩ = some psi' ∧
        (psi'.site k).dr = 1 ∧ (psi'.site (k + 1)).dl = 1 := by
  intro svdOf psi k u cutoff hk hσ
  have hkc : keptCount (svdOf (thetaMat (psi.site k) (psi.site (k + 1)) u)).sigma
      (Truncation.mk 0 cutoff).cutoff (Truncation.mk 0 cutoff).max_bond = 0 := by
    rw [keptCount_eq]
    exact Nat.zero_min _
  rw [apply_2q_svd_characterize svdOf psi k u ⟨0, cutoff⟩ hk]
  rw [hkc]
  simp only [eq_self_iff_true, if_true]
  rw [if_pos hσ]
  refine ⟨_, rfl, ?_, ?_⟩
  · rw [site_set_pair psi k _ _ hk k, if_neg (by omega), if_pos rfl]
    rfl
  · rw [site_set_pair psi k _ _ hk (k + 1), if_pos rfl]
    rfl

/-- C5 witness: a concrete instantiation of the amended theorem on the
two-qubit product state with a one-singular-value SVD output. -/
theorem apply_2q_svd_max_bond_zero_witness :
    (0 + 1 < (MPS.new_zero 2).sites.length) ∧
    (1 ≤ (svdStub (thetaMat ((MPS.new_zero 2).site 0) ((MPS.new_zero 2).site 1)
      (fun _ _ => 0))).sigma.length) ∧
    (∃ psi', MPS.apply_2q_svd svdStub (MPS.new_zero 2) 0 (fun _ _ => 0) ⟨0, 0⟩ = some psi' ∧
      (psi'.site 0).dr = 1 ∧ (psi'.site 1).dl = 1) :=
  ⟨by decide, by decide,
    apply_2q_svd_max_bond_zero svdStub (MPS.new_zero 2) 0 (fun _ _ => 0) 0
      (by decide) (by decide)⟩

/-- C1: after a successful `apply_2q_svd` with `max_bond ≥ 1`, the number
of kept singular values (the new bond dimension) is
`min(max_bond, #{i : σ_i > cutoff})`, except that a count of 0 keeps one;
the replaced site tensors have shapes `(dl, 2, kept)` and `(kept, 2, dr)`,
with `dl`, `dr` the outer bond dimensions before the call. -/
theorem apply_2q_svd_truncation_shapes :
    ∀ (svdOf : SvdFn) (psi : MPS) (k : ℕ) (u : ℕ → ℕ → Cq) (trunc : Truncation)
      (psi' : MPS),
      k + 1 < psi.sites.length →
      1 ≤ trunc.max_bond →
      MPS.apply_2q_svd svdOf psi k u trunc = some psi' →
      ((psi'.site k).dl = (psi.site k).dl ∧
       (psi'.site k).dp = 2 ∧
       (psi'.site k).dr = keptSpec (svdOf (thetaMat (psi.site k) (psi.site (k + 1)) u)).sigma
         trunc.cutoff trunc.max_bond) ∧
      ((psi'.site (k + 1)).dl = keptSpec
         (svdOf (thetaMat (psi.site k) (psi.site (k + 1)) u)).sigma
         trunc.cutoff trunc.max_bond ∧
       (psi'.site (k + 1)).dp = 2 ∧
       (psi'.site (k + 1)).dr = (psi.site (k + 1)).dr) := by
  intro svdOf psi k u trunc psi' hk hmb hres
  rw [apply_2q_svd_characterize svdOf psi k u trunc hk] at hres
  have hkept : (if keptCount (svdOf (thetaMat (psi.site k) (psi.site (k + 1)) u)).sigma
      trunc.cutoff trunc.max_bond = 0 then 1
      else keptCount (svdOf (thetaMat (psi.site k) (psi.site (k + 1)) u)).sigma
        trunc.cutoff trunc.max_bond)
      = keptSpec (svdOf (thetaMat (psi.site k) (psi.site (k + 1)) u)).sigma
        trunc.cutoff trunc.max_bond := by
    rw [keptCount_eq, keptSpec]
    by_cases hc : (svdOf (thetaMat (psi.site k) (psi.site (k + 1)) u)).sigma.countP
        (fun sv => decide (trunc.cutoff < sv)) = 0
    · rw [if_pos hc]
      rw [hc]
      simp
    · rw [if_neg hc]
      rw [if_neg (by omega)]
  rw [hkept] at hres
  by_cases hguard : keptSpec (svdOf (thetaMat (psi.site k) (psi.site (k + 1)) u)).sigma
      trunc.cutoff trunc.max_bond
      ≤ (svdOf (thetaMat (psi.site k) (psi.site (k + 1)) u)).sigma.length
  · rw [if_pos hguard] at hres
    have hpsi := (Option.some.injEq _ _).mp hres
    subst hpsi
    constructor
    · rw [site_set_pair psi k _ _ hk k, if_neg (by omega), if_pos rfl]
      exact ⟨rfl, rfl, rfl⟩
    · rw [site_set_pair psi k _ _ hk (k + 1), if_pos rfl]
      exact ⟨rfl, rfl, rfl⟩
  · rw [if_neg hguard] at hres
    exact absurd hres (by simp)

/-- C1 witness: a concrete two-qubit call with `max_bond = 2`, `cutoff = 0`
and singular values `[1, 1/2]`: both are kept and the two new sites have
shapes `(1, 2, 2)` and `(2, 2, 1)`. -/
theorem apply_2q_svd_truncation_shapes_witness :
    (0 + 1 < (MPS.new_zero 2).sites.length) ∧
    (1 ≤ (Truncation.mk 2 0).max_bond) ∧
    (MPS.apply_2q_svd (fun _ => SvdData.mk [1, 1/2] (fun _ _ => 0) (fun _ _ => 0))
        (MPS.new_zero 2) 0 (fun _ _ => 0) (Truncation.mk 2 0) =
      some ((MPS.apply_2q_svd (fun _ => SvdData.mk [1, 1/2] (fun _ _ => 0) (fun _ _ => 0))
        (MPS.new_zero 2) 0 (fun _ _ => 0) (Truncation.mk 2 0)).getD (MPS.new_zero 0))) ∧
    ((((MPS.apply_2q_svd (fun _ => SvdData.mk [1, 1/2] (fun _ _ => 0) (fun _ _ => 0))
        (MPS.new_zero 2) 0 (fun _ _ => 0) (Truncation.mk 2 0)).getD
          (MPS.new_zero 0)).site 0).dl = ((MPS.new_zero 2).site 0).dl ∧
     (((MPS.apply_2q_svd (fun _ => SvdData.mk [1, 1/2] (fun _ _ => 0) (fun _ _ => 0))
        (MPS.new_zero 2) 0 (fun _ _ => 0) (Truncation.mk 2 0)).getD
          (MPS.new_zero 0)).site 0).dp = 2 ∧
     (((MPS.apply_2q_svd (fun _ => SvdData.mk [1, 1/2] (fun _ _ => 0) (fun _ _ => 0))
        (MPS.new_zero 2) 0 (fun _ _ => 0) (Truncation.mk 2 0)).getD
          (MPS.new_zero 0)).site 0).dr =
       keptSpec (SvdData.mk [1, 1/2] (fun (_ : ℕ) (_ : ℕ) => (0 : Cq))
         (fun _ _ => 0)).sigma (Truncation.mk 2 0).cutoff (Truncation.mk 2 0).max_bond) ∧
    ((((MPS.apply_2q_svd (fun _ => SvdData.mk [1, 1/2] (fun _ _ => 0) (fun _ _ => 0))
        (MPS.new_zero 2) 0 (fun _ _ => 0) (Truncation.mk 2 0)).getD
          (MPS.new_zero 0)).site 1).dl =
       keptSpec (SvdData.mk [1, 1/2] (fun (_ : ℕ) (_ : ℕ) => (0 : Cq))
         (fun _ _ => 0)).sigma (Truncation.mk 2 0).cutoff (Truncation.mk 2 0).max_bond ∧
     (((MPS.apply_2q_svd (fun _ => SvdData.mk [1, 1/2] (fun _ _ => 0) (fun _ _ => 0))
        (MPS.new_zero 2) 0 (fun _ _ => 0) (Truncation.mk 2 0)).getD
          (MPS.new_zero 0)).site 1).dp = 2 ∧
     (((MPS.apply_2q_svd (fun _ => SvdData.mk [1, 1/2] (fun _ _ => 0) (fun _ _ => 0))
        (MPS.new_zero 2) 0 (fun _ _ => 0) (Truncation.mk 2 0)).getD
          (MPS.new_zero 0)).site 1).dr = ((MPS.new_zero 2).site 1).dr) :=
  ⟨by decide, by decide, by decide,
    apply_2q_svd_truncation_shapes
      (fun _ => SvdData.mk [1, 1/2] (fun _ _ => 0) (fun _ _ => 0))
      (MPS.new_zero 2) 0 (fun _ _ => 0) (Truncation.mk 2 0) _
      (by decide) (by decide) (by decide)⟩

theorem apply_1q_wf (psi : MPS) (k : ℕ) (u : ℕ → ℕ → Cq) (psi' : MPS)
    (h : psi.wf) (hres : psi.apply_1q k u = some psi') : psi'.wf := by
  unfold MPS.apply_1q at hres
  by_cases hk : k < psi.sites.length
  · rw [if_pos hk, Option.some.injEq] at hres
    subst hres
    exact wf_set_single psi k _ hk rfl (h.2.2.2.1 k hk) rfl h
  · rw [if_neg hk] at hres
    exact absurd hres (by simp)

theorem apply_2q_svd_wf (svdOf : SvdFn) (psi : MPS) (k : ℕ) (u : ℕ → ℕ → Cq)
    (trunc : Truncation) (psi' : MPS)
    (h : psi.wf) (hres : MPS.apply_2q_svd svdOf psi k u trunc = some psi') : psi'.wf := by
  by_cases hk : k + 1 < psi.sites.length
  · rw [apply_2q_svd_characterize svdOf psi k u trunc hk] at hres
    by_cases hg : (if keptCount (svdOf (thetaMat (psi.site k) (psi.site (k + 1)) u)).sigma
          trunc.cutoff trunc.max_bond = 0 then 1
        else keptCount (svdOf (thetaMat (psi.site k) (psi.site (k + 1)) u)).sigma
          trunc.cutoff trunc.max_bond)
        ≤ (svdOf (thetaMat (psi.site k) (psi.site (k + 1)) u)).sigma.length
    · rw [if_pos hg, Option.some.injEq] at hres
      subst hres
      exact wf_set_pair psi k _ _ hk rfl rfl rfl rfl rfl h
    · rw [if_neg hg] at hres
      exact absurd hres (by simp)
  · unfold MPS.apply_2q_svd at hres
    rw [if_neg hk] at hres
    exact absurd hres (by simp)

theorem measure_z_wf (shake : Shake) (sqrtf : ℚ → ℚ) (psi : MPS) (k : ℕ)
    (rng : ONDRng) (out : ℕ) (psi' : MPS) (rng' : ONDRng)
    (h : psi.wf) (hres : measure_z shake sqrtf psi k rng = some (out, psi', rng')) :
    psi'.wf := by
  simp only [measure_z] at hres
  by_cases hk : k < psi.sites.length
  · rw [if_pos hk] at hres
    by_cases htot : (measureProbs psi k).foldl (fun acc w => acc + w) 0 = 0
    · rw [if_pos htot, Option.some.injEq, Prod.mk.injEq, Prod.mk.injEq] at hres
      obtain ⟨-, h2, -⟩ := hres
      rw [← h2]
      exact h
    · rw [if_neg htot] at hres
      by_cases hnorm : sqrtf ((measureProbs psi k).getD
          (selectOutcome (measureProbs psi k)
            ((ONDRng.next_f64 shake rng ctxMEASURE).1 *
              (measureProbs psi k).foldl (fun acc w => acc + w) 0)) 0) = 0
      · rw [if_pos hnorm, Option.some.injEq, Prod.mk.injEq, Prod.mk.injEq] at hres
        obtain ⟨-, h2, -⟩ := hres
        rw [← h2]
        exact h
      · rw [if_neg hnorm, Option.some.injEq, Prod.mk.injEq, Prod.mk.injEq] at hres
        obtain ⟨-, h2, -⟩ := hres
        rw [← h2]
        exact wf_set_single psi k _ hk rfl (h.2.2.2.1 k hk) rfl h
  · rw [if_neg hk] at hres
    exact absurd hres (by simp)

theorem depolarizing_1q_wf (shake : Shake) (psi : MPS) (k : ℕ) (p : ℚ)
    (rng : ONDRng) (psi' : MPS) (rng' : ONDRng)
    (h : psi.wf) (hres : depolarizing_1q shake psi k p rng = some (psi', rng')) :
    psi'.wf := by
  simp only [depolarizing_1q] at hres
  by_cases hp : p ≤ 0
  · rw [if_pos hp, Option.some.injEq, Prod.mk.injEq] at hres
    obtain ⟨h1, -⟩ := hres
    rw [← h1]
    exact h
  · rw [if_neg hp] at hres
    by_cases hx : p ≤ (ONDRng.next_f64 shake rng ctxDEPOL).1
    · rw [if_pos hx, Option.some.injEq, Prod.mk.injEq] at hres
      obtain ⟨h1, -⟩ := hres
      rw [← h1]
      exact h
    · rw [if_neg hx] at hres
      by_cases h3 : (ONDRng.next_f64 shake rng ctxDEPOL).1 / p < 1 / 3
      · rw [if_pos h3] at hres
        obtain ⟨q, hq, hqe⟩ := Option.map_eq_some'.mp hres
        rw [Prod.mk.injEq] at hqe
        obtain ⟨h1, -⟩ := hqe
        rw [← h1]
        exact apply_1q_wf psi k pauli_x q h hq
      · rw [if_neg h3] at hres
        by_cases h23 : (ONDRng.next_f64 shake rng ctxDEPOL).1 / p < 2 / 3
        · rw [if_pos h23] at hres
          obtain ⟨q, hq, hqe⟩ := Option.map_eq_some'.mp hres
          rw [Prod.mk.injEq] at hqe
          obtain ⟨h1, -⟩ := hqe
          rw [← h1]
          exact apply_1q_wf psi k pauli_y q h hq
        · rw [if_neg h23] at hres
          obtain ⟨q, hq, hqe⟩ := Option.map_eq_some'.mp hres
          rw [Prod.mk.injEq] at hqe
          obtain ⟨h1, -⟩ := hqe
          rw [← h1]
          exact apply_1q_wf psi k pauli_z q h hq

/-- C2: every state-mutating operation (`apply_1q`, `apply_2q_svd`,
`measure_z`, `depolarizing_1q`) preserves the MPS structural invariants —
matching adjacent bond dimensions, boundary bonds 1, and physical
dimension 2 on every site — whenever they hold before the call. -/
theorem state_ops_preserve_wf :
    (∀ (psi : MPS) (k : ℕ) (u : ℕ → ℕ → Cq) (psi' : MPS),
      psi.wf → psi.apply_1q k u = some psi' → psi'.wf) ∧
    (∀ (svdOf : SvdFn) (psi : MPS) (k : ℕ) (u : ℕ → ℕ → Cq) (trunc : Truncation)
      (psi' : MPS),
      psi.wf → MPS.apply_2q_svd svdOf psi k u trunc = some psi' → psi'.wf) ∧
    (∀ (shake : Shake) (sqrtf : ℚ → ℚ) (psi : MPS) (k : ℕ) (rng : ONDRng)
      (out : ℕ) (psi' : MPS) (rng' : ONDRng),
      psi.wf → measure_z shake sqrtf psi k rng = some (out, psi', rng') → psi'.wf) ∧
    (∀ (shake : Shake) (psi : MPS) (k : ℕ) (p : ℚ) (rng : ONDRng)
      (psi' : MPS) (rng' : ONDRng),
      psi.wf → depolarizing_1q shake psi k p rng = some (psi', rng') → psi'.wf) :=
  ⟨fun psi k u psi' => apply_1q_wf psi k u psi',
   fun svdOf psi k u trunc psi' => apply_2q_svd_wf svdOf psi k u trunc psi',
   fun shake sqrtf psi k rng out psi' rng' => measure_z_wf shake sqrtf psi k rng out psi' rng',
   fun shake psi k p rng psi' rng' => depolarizing_1q_wf shake psi k p rng psi' rng'⟩

set_option maxRecDepth 4000 in
/-- C2 witness: concrete applications of all four operations on small
well-formed states, each preserving the invariants. -/
theorem state_ops_preserve_wf_witness :
    (MPS.new_zero 2).wf ∧
    (((MPS.new_zero 2).apply_1q 0 pauli_x).getD (MPS.new_zero 0)).wf ∧
    ((MPS.apply_2q_svd svdStub (MPS.new_zero 2) 0 (fun _ _ => 0)
      (Truncation.mk 2 0)).getD (MPS.new_zero 0)).wf ∧
    (((measure_z shakeMax sqrt0 (MPS.new_zero 1) 0 (ONDRng.mk [] 0)).getD
      (0, MPS.new_zero 0, ONDRng.mk [] 0)).2.1).wf ∧
    (((depolarizing_1q shakeMax (MPS.new_zero 1) 0 1 (ONDRng.mk [] 0)).getD
      (MPS.new_zero 0, ONDRng.mk [] 0)).1).wf :=
  ⟨by decide,
   state_ops_preserve_wf.1 (MPS.new_zero 2) 0 pauli_x
     (((MPS.new_zero 2).apply_1q 0 pauli_x).getD (MPS.new_zero 0))
     (by decide) (by decide),
   state_ops_preserve_wf.2.1 svdStub (MPS.new_zero 2) 0 (fun _ _ => 0)
     (Truncation.mk 2 0)
     ((MPS.apply_2q_svd svdStub (MPS.new_zero 2) 0 (fun _ _ => 0)
       (Truncation.mk 2 0)).getD (MPS.new_zero 0))
     (by decide) (by decide),
   state_ops_preserve_wf.2.2.1 shakeMax sqrt0 (MPS.new_zero 1) 0 (ONDRng.mk [] 0)
     ((measure_z shakeMax sqrt0 (MPS.new_zero 1) 0 (ONDRng.mk [] 0)).getD
       (0, MPS.new_zero 0, ONDRng.mk [] 0)).1
     ((measure_z shakeMax sqrt0 (MPS.new_zero 1) 0 (ONDRng.mk [] 0)).getD
       (0, MPS.new_zero 0, ONDRng.mk [] 0)).2.1
     ((measure_z shakeMax sqrt0 (MPS.new_zero 1) 0 (ONDRng.mk [] 0)).getD
       (0, MPS.new_zero 0, ONDRng.mk [] 0)).2.2
     (by decide) (by decide),
   state_ops_preserve_wf.2.2.2 shakeMax (MPS.new_zero 1) 0 1 (ONDRng.mk [] 0)
     ((depolarizing_1q shakeMax (MPS.new_zero 1) 0 1 (ONDRng.mk [] 0)).getD
       (MPS.new_zero 0, ONDRng.mk [] 0)).1
     ((depolarizing_1q shakeMax (MPS.new_zero 1) 0 1 (ONDRng.mk [] 0)).getD
       (MPS.new_zero 0, ONDRng.mk [] 0)).2
     (by decide) (by decide)⟩

theorem next_f64_snd_ctx_free (shake : Shake) (rng : ONDRng) (c c' : List ℕ) :
    (ONDRng.next_f64 shake rng c).2 = (ONDRng.next_f64 shake rng c').2 := rfl

theorem afterCtxs_length_only (shake : Shake) :
    ∀ (l1 l2 : List (List ℕ)) (rng : ONDRng), l1.length = l2.length →
      afterCtxs shake rng l1 = afterCtxs shake rng l2 := by
  intro l1
  induction l1 with
  | nil =>
    intro l2 rng hlen
    cases l2 with
    | nil => rfl
    | cons c cs => exact absurd hlen (by simp)
  | cons c cs ih =>
    intro l2 rng hlen
    cases l2 with
    | nil => exact absurd hlen (by simp)
    | cons c' cs' =>
      show afterCtxs shake (ONDRng.next_f64 shake rng c).2 cs
        = afterCtxs shake (ONDRng.next_f64 shake rng c').2 cs'
      rw [next_f64_snd_ctx_free shake rng c c']
      exact ih cs' _ (by simpa using hlen)

theorem draws_append (shake : Shake) (rng : ONDRng) (l1 l2 : List (List ℕ)) :
    ONDRng.draws shake rng (l1 ++ l2) =
      ONDRng.draws shake rng l1 ++ ONDRng.draws shake (afterCtxs shake rng l1) l2 := by
  induction l1 generalizing rng with
  | nil => rfl
  | cons c cs ih =>
    show (ONDRng.next_f64 shake rng c).1 :: ONDRng.draws shake _ (cs ++ l2) = _
    rw [ih]
    rfl

theorem draws_length (shake : Shake) (rng : ONDRng) (l : List (List ℕ)) :
    (ONDRng.draws shake rng l).length = l.length := by
  induction l generalizing rng with
  | nil => rfl
  | cons c cs ih =>
    show ((ONDRng.next_f64 shake rng c).1 :: ONDRng.draws shake _ cs).length = _
    simp [ih]

set_option maxRecDepth 8000 in
/-- C3 counterexample: with a concrete hash, seed, and three context tags,
swapping the first two adjacent context tags leaves the third draw
unchanged (while the context sequences differ), so "every draw after the
swapped pair differs" is false. -/
theorem rng_swap_counterexample :
    ([[1], [2], [3]] : List (List ℕ)) ≠ [[2], [1], [3]] ∧
    (ONDRng.draws shakeStub (ONDRng.new shakeStub [9]) [[1], [2], [3]]).getD 2 0 =
      (ONDRng.draws shakeStub (ONDRng.new shakeStub [9]) [[2], [1], [3]]).getD 2 0 := by
  constructor
  · decide
  · decide

/-- C3 (amended): two RNGs constructed from identical seed bytes and fed
identical context sequences produce identical draw sequences; and because
the state evolution never consumes the context tag, swapping two adjacent
context tags changes at most the two swapped draws — every draw before and
after the swapped pair is unchanged (for any hash function, in particular
SHAKE-256). -/
theorem rng_determinism_and_swap :
    (∀ (shake : Shake) (seed1 seed2 : List ℕ) (ctxs : List (List ℕ)),
      seed1 = seed2 →
      ONDRng.draws shake (ONDRng.new shake seed1) ctxs =
        ONDRng.draws shake (ONDRng.new shake seed2) ctxs) ∧
    (∀ (shake : Shake) (seed : List ℕ) (pre post : List (List ℕ)) (c1 c2 : List ℕ),
      (ONDRng.draws shake (ONDRng.new shake seed) (pre ++ c1 :: c2 :: post)).drop
          (pre.length + 2) =
        (ONDRng.draws shake (ONDRng.new shake seed) (pre ++ c2 :: c1 :: post)).drop
          (pre.length + 2) ∧
      (ONDRng.draws shake (ONDRng.new shake seed) (pre ++ c1 :: c2 :: post)).take
          pre.length =
        (ONDRng.draws shake (ONDRng.new shake seed) (pre ++ c2 :: c1 :: post)).take
          pre.length) := by
  constructor
  · intro shake seed1 seed2 ctxs hseed
    rw [hseed]
  · intro shake seed pre post c1 c2
    have hre1 : pre ++ c1 :: c2 :: post = (pre ++ [c1, c2]) ++ post := by simp
    have hre2 : pre ++ c2 :: c1 :: post = (pre ++ [c2, c1]) ++ post := by simp
    constructor
    · rw [hre1, hre2,
        draws_append shake (ONDRng.new shake seed) (pre ++ [c1, c2]) post,
        draws_append shake (ONDRng.new shake seed) (pre ++ [c2, c1]) post]
      have hlen1 : (ONDRng.draws shake (ONDRng.new shake seed) (pre ++ [c1, c2])).length
          = pre.length + 2 := by
        rw [draws_length]
        simp
      have hlen2 : (ONDRng.draws shake (ONDRng.new shake seed) (pre ++ [c2, c1])).length
          = pre.length + 2 := by
        rw [draws_length]
        simp
      rw [List.drop_left' hlen1, List.drop_left' hlen2]
      rw [afterCtxs_length_only shake (pre ++ [c1, c2]) (pre ++ [c2, c1]) _ (by simp)]
    · rw [draws_append shake (ONDRng.new shake seed) pre (c1 :: c2 :: post),
        draws_append shake (ONDRng.new shake seed) pre (c2 :: c1 :: post)]
      have hlen : (ONDRng.draws shake (ONDRng.new shake seed) pre).length = pre.length :=
        draws_length _ _ _
      rw [List.take_left' hlen, List.take_left' hlen]

/-- C3 witness: the amended theorem at concrete inputs. -/
theorem rng_determinism_and_swap_witness :
    ([4] : List ℕ) = [4] ∧
    ONDRng.draws shakeStub (ONDRng.new shakeStub [4]) [[0], [1]] =
      ONDRng.draws shakeStub (ONDRng.new shakeStub [4]) [[0], [1]] ∧
    (ONDRng.draws shakeStub (ONDRng.new shakeStub [5]) ([[6]] ++ [7] :: [8] :: [[9]])).drop
        ([[6]].length + 2) =
      (ONDRng.draws shakeStub (ONDRng.new shakeStub [5]) ([[6]] ++ [8] :: [7] :: [[9]])).drop
        ([[6]].length + 2) :=
  ⟨rfl,
   rng_determinism_and_swap.1 shakeStub [4] [4] [[0], [1]] rfl,
   (rng_determinism_and_swap.2 shakeStub [5] [[6]] [[9]] [7] [8]).1⟩

theorem Cq.conj_zero : Cq.conj 0 = 0 := by decide

theorem Cq.conj_one : Cq.conj 1 = 1 := by decide

theorem chainFrom_of_getD :
    ∀ (l : List Tensor3) (d : ℕ),
      (∀ i, i < l.length → (l.getD i t0).dp = 2) →
      (∀ i, i + 1 < l.length → (l.getD i t0).dr = (l.getD (i + 1) t0).dl) →
      (0 < l.length → (l.getD 0 t0).dl = d) →
      chainFrom d l := by
  intro l
  induction l with
  | nil => intro d _ _ _; trivial
  | cons t rest ih =>
    intro d hdp hadj h0
    refine ⟨h0 (by simp), hdp 0 (by simp), ?_⟩
    refine ih t.dr (fun i hi => hdp (i + 1) (by simpa using hi))
      (fun i hi => hadj (i + 1) (by simpa using hi)) (fun hpos => ?_)
    have := hadj 0 (by simpa using hpos)
    simpa using this.symm

theorem chainFrom_of_wf (psi : MPS) (h : psi.wf) : chainFrom 1 psi.sites := by
  refine chainFrom_of_getD psi.sites 1 h.2.2.2.1 h.2.2.2.2 (fun _ => ?_)
  exact h.2.1

theorem overlapStep_length (sa sb : Tensor3) (env : List Cq) :
    (overlapStep sa sb env).length = sa.dr * sb.dr := by
  simp [overlapStep]

theorem overlapStep_entry (sa sb : Tensor3) (env : List Cq) (ra rb : ℕ)
    (hra : ra < sa.dr) (hrb : rb < sb.dr) :
    (overlapStep sa sb env).getD (ra * sb.dr + rb) 0 =
      ∑ la ∈ Finset.range sa.dl, ∑ lb ∈ Finset.range sb.dl,
        env.getD (la * sb.dl + lb) 0 *
          ∑ p ∈ Finset.range sa.dp, Cq.conj (sa.get la p ra) * sb.get lb p rb := by
  unfold overlapStep
  rw [getD_map_range, if_pos (pair_encode_lt sa.dr sb.dr ra rb hra hrb)]
  rw [pair_decode_div sb.dr ra rb hrb, pair_decode_mod sb.dr ra rb hrb]

theorem sum3_reorder (n1 n2 n3 : ℕ) (f : ℕ → ℕ → ℕ → Cq) :
    ∑ a ∈ Finset.range n1, ∑ b ∈ Finset.range n2, ∑ c ∈ Finset.range n3, f a b c =
      ∑ c ∈ Finset.range n3, ∑ a ∈ Finset.range n1, ∑ b ∈ Finset.range n2, f a b c := by
  calc ∑ a ∈ Finset.range n1, ∑ b ∈ Finset.range n2, ∑ c ∈ Finset.range n3, f a b c
      = ∑ a ∈ Finset.range n1, ∑ c ∈ Finset.range n3, ∑ b ∈ Finset.range n2, f a b c :=
        Finset.sum_congr rfl (fun a _ => Finset.sum_comm)
    _ = ∑ c ∈ Finset.range n3, ∑ a ∈ Finset.range n1, ∑ b ∈ Finset.range n2, f a b c :=
        Finset.sum_comm

theorem sum4_reorder (n1 n2 n3 n4 : ℕ) (f : ℕ → ℕ → ℕ → ℕ → Cq) :
    ∑ a ∈ Finset.range n1, ∑ b ∈ Finset.range n2, ∑ c ∈ Finset.range n3,
        ∑ d ∈ Finset.range n4, f a b c d =
      ∑ c ∈ Finset.range n3, ∑ d ∈ Finset.range n4, ∑ a ∈ Finset.range n1,
        ∑ b ∈ Finset.range n2, f a b c d := by
  calc ∑ a ∈ Finset.range n1, ∑ b ∈ Finset.range n2, ∑ c ∈ Finset.range n3,
        ∑ d ∈ Finset.range n4, f a b c d
      = ∑ a ∈ Finset.range n1, ∑ c ∈ Finset.range n3, ∑ b ∈ Finset.range n2,
          ∑ d ∈ Finset.range n4, f a b c d :=
        Finset.sum_congr rfl (fun a _ => Finset.sum_comm)
    _ = ∑ c ∈ Finset.range n3, ∑ a ∈ Finset.range n1, ∑ b ∈ Finset.range n2,
          ∑ d ∈ Finset.range n4, f a b c d := Finset.sum_comm
    _ = ∑ c ∈ Finset.range n3, ∑ a ∈ Finset.range n1, ∑ d ∈ Finset.range n4,
          ∑ b ∈ Finset.range n2, f a b c d :=
        Finset.sum_congr rfl (fun c _ => Finset.sum_congr rfl (fun a _ => Finset.sum_comm))
    _ = ∑ c ∈ Finset.range n3, ∑ d ∈ Finset.range n4, ∑ a ∈ Finset.range n1,
          ∑ b ∈ Finset.range n2, f a b c d :=
        Finset.sum_congr rfl (fun c _ => Finset.sum_comm)

theorem mirror_step (sa sb : Tensor3) (e1 e2 : List Cq)
    (hdp : sa.dp = sb.dp)
    (h : Mirror sa.dl sb.dl e1 e2) :
    Mirror sa.dr sb.dr (overlapStep sa sb e1) (overlapStep sb sa e2) := by
  obtain ⟨hl1, hl2, hent⟩ := h
  refine ⟨overlapStep_length sa sb e1, overlapStep_length sb sa e2, ?_⟩
  intro ra rb hra hrb
  rw [overlapStep_entry sa sb e1 ra rb hra hrb]
  rw [overlapStep_entry sb sa e2 rb ra hrb hra]
  rw [hdp]
  conv_rhs => rw [Finset.sum_comm]
  rw [Cq.conj_sum]
  refine Finset.sum_congr rfl fun la hla => ?_
  rw [Cq.conj_sum]
  refine Finset.sum_congr rfl fun lb hlb => ?_
  rw [Cq.conj_mul]
  rw [← hent la lb (Finset.mem_range.mp hla) (Finset.mem_range.mp hlb)]
  rw [Cq.conj_sum]
  congr 1
  refine Finset.sum_congr rfl fun p hp => ?_
  rw [Cq.conj_mul, Cq.conj_conj]
  ring

theorem mirror_run :
    ∀ (la lb : List Tensor3) (da db : ℕ) (e1 e2 : List Cq),
      la.length = lb.length →
      chainFrom da la → chainFrom db lb →
      Mirror da db e1 e2 →
      ∃ d1 d2, Mirror d1 d2 (overlapRun (la.zip lb) e1) (overlapRun (lb.zip la) e2) := by
  intro la
  induction la with
  | nil =>
    intro lb da db e1 e2 hlen _ _ h
    cases lb with
    | nil => exact ⟨da, db, h⟩
    | cons sb lb' => exact absurd hlen (by simp)
  | cons sa la' ih =>
    intro lb da db e1 e2 hlen hca hcb h
    cases lb with
    | nil => exact absurd hlen (by simp)
    | cons sb lb' =>
      obtain ⟨hdla, hdpa, hca'⟩ := hca
      obtain ⟨hdlb, hdpb, hcb'⟩ := hcb
      show ∃ d1 d2, Mirror d1 d2 (overlapRun (la'.zip lb') (overlapStep sa sb e1))
        (overlapRun (lb'.zip la') (overlapStep sb sa e2))
      refine ih lb' sa.dr sb.dr _ _ (by simpa using hlen) hca' hcb' ?_
      refine mirror_step sa sb e1 e2 (hdpa.trans hdpb.symm) ?_
      rw [hdla, hdlb]
      exact h

theorem mirror_sum (d1 d2 : ℕ) (e1 e2 : List Cq) (h : Mirror d1 d2 e1 e2) :
    e1.foldl (fun acc v => acc + v) 0 =
      Cq.conj (e2.foldl (fun acc v => acc + v) 0) := by
  obtain ⟨hl1, hl2, hent⟩ := h
  rw [foldl_add_eq_sum, foldl_add_eq_sum, hl1, hl2]
  rw [sum_range_mul_eq d1 d2, sum_range_mul_eq d2 d1]
  rw [Cq.conj_sum]
  rw [Finset.sum_comm]
  refine Finset.sum_congr rfl fun b hb => ?_
  rw [Cq.conj_sum]
  refine Finset.sum_congr rfl fun a ha => ?_
  exact hent a b (Finset.mem_range.mp ha) (Finset.mem_range.mp hb)

theorem repGram_step (s : Tensor3) (env : List Cq) (h : RepGram s.dl env) :
    RepGram s.dr (overlapStep s s env) := by
  obtain ⟨m, F, hlen, hent⟩ := h
  refine ⟨m * s.dp,
    fun w r => ∑ la ∈ Finset.range s.dl, F (w / s.dp) la * s.get la (w % s.dp) r,
    overlapStep_length s s env, ?_⟩
  intro ra rb hra hrb
  rw [overlapStep_entry s s env ra rb hra hrb]
  rw [sum_range_mul_eq m s.dp]
  have hL : ∑ la ∈ Finset.range s.dl, ∑ lb ∈ Finset.range s.dl,
      env.getD (la * s.dl + lb) 0 *
        ∑ p ∈ Finset.range s.dp, Cq.conj (s.get la p ra) * s.get lb p rb
      = ∑ la ∈ Finset.range s.dl, ∑ lb ∈ Finset.range s.dl,
        ∑ w ∈ Finset.range m, ∑ p ∈ Finset.range s.dp,
          (Cq.conj (F w la) * F w lb) * (Cq.conj (s.get la p ra) * s.get lb p rb) := by
    refine Finset.sum_congr rfl fun la hla => Finset.sum_congr rfl fun lb hlb => ?_
    rw [hent la lb (Finset.mem_range.mp hla) (Finset.mem_range.mp hlb)]
    rw [Finset.sum_mul_sum]
  rw [hL, sum4_reorder]
  refine Finset.sum_congr rfl fun w hw => Finset.sum_congr rfl fun p hp => ?_
  have hdiv : (w * s.dp + p) / s.dp = w :=
    pair_decode_div s.dp w p (Finset.mem_range.mp hp)
  have hmod : (w * s.dp + p) % s.dp = p :=
    pair_decode_mod s.dp w p (Finset.mem_range.mp hp)
  beta_reduce
  rw [hdiv, hmod]
  rw [Cq.conj_sum, Finset.sum_mul_sum]
  refine Finset.sum_congr rfl fun la hla => Finset.sum_congr rfl fun lb hlb => ?_
  rw [Cq.conj_mul]
  ring

theorem repGram_run :
    ∀ (l : List Tensor3) (d : ℕ) (env : List Cq),
      chainFrom d l → RepGram d env →
      ∃ d', RepGram d' (overlapRun (l.zip l) env) := by
  intro l
  induction l with
  | nil => exact fun d env _ h => ⟨d, h⟩
  | cons s l' ih =>
    intro d env hc h
    obtain ⟨hdl, hdp, hc'⟩ := hc
    show ∃ d', RepGram d' (overlapRun (l'.zip l') (overlapStep s s env))
    refine ih s.dr _ hc' (repGram_step s env ?_)
    rw [hdl]
    exact h

theorem repGram_sum (d : ℕ) (env : List Cq) (h : RepGram d env) :
    0 ≤ (env.foldl (fun acc v => acc + v) 0).re ∧
      (env.foldl (fun acc v => acc + v) 0).im = 0 := by
  obtain ⟨m, F, hlen, hent⟩ := h
  have hsum : env.foldl (fun acc v => acc + v) 0 =
      ∑ w ∈ Finset.range m,
        Cq.conj (∑ r ∈ Finset.range d, F w r) * ∑ r ∈ Finset.range d, F w r := by
    rw [foldl_add_eq_sum, hlen, sum_range_mul_eq d d]
    calc ∑ ra ∈ Finset.range d, ∑ rb ∈ Finset.range d, env.getD (ra * d + rb) 0
        = ∑ ra ∈ Finset.range d, ∑ rb ∈ Finset.range d,
            ∑ w ∈ Finset.range m, Cq.conj (F w ra) * F w rb :=
          Finset.sum_congr rfl fun ra hra => Finset.sum_congr rfl fun rb hrb =>
            hent ra rb (Finset.mem_range.mp hra) (Finset.mem_range.mp hrb)
      _ = ∑ w ∈ Finset.range m, ∑ ra ∈ Finset.range d, ∑ rb ∈ Finset.range d,
            Cq.conj (F w ra) * F w rb := sum3_reorder d d m _
      _ = ∑ w ∈ Finset.range m,
            Cq.conj (∑ r ∈ Finset.range d, F w r) * ∑ r ∈ Finset.range d, F w r := by
          refine Finset.sum_congr rfl fun w hw => ?_
          rw [Cq.conj_sum, Finset.sum_mul_sum]
  constructor
  · rw [hsum, Cq.re_sum]
    refine Finset.sum_nonneg fun w _ => ?_
    rw [Cq.conj_mul_self_re]
    exact add_nonneg (mul_self_nonneg _) (mul_self_nonneg _)
  · rw [hsum, Cq.im_sum]
    exact Finset.sum_eq_zero fun w _ => Cq.conj_mul_self_im _

theorem overlap_eq (a b : MPS) (h : a.sites.length = b.sites.length ∧ a.sites ≠ []) :
    overlap a b = some ((overlapRun (a.sites.zip b.sites)
      ((List.range ((a.site 0).dl * (b.site 0).dl)).map
        (fun j => if j = 0 then (1 : Cq) else 0))).foldl (fun acc v => acc + v) 0) := by
  unfold overlap
  rw [if_pos h]

theorem pair_index_ne_zero (d : ℕ) (ra rb : ℕ) (hrb : rb < d)
    (h0 : ¬(ra = 0 ∧ rb = 0)) : ra * d + rb ≠ 0 := by
  intro hc
  have hrb0 : rb = 0 := by omega
  have hra0 : ra * d = 0 := by omega
  rcases Nat.mul_eq_zero.mp hra0 with h | h
  · exact h0 ⟨h, hrb0⟩
  · omega

theorem mirror_init (da db : ℕ) :
    Mirror da db
      ((List.range (da * db)).map (fun j => if j = 0 then (1 : Cq) else 0))
      ((List.range (db * da)).map (fun j => if j = 0 then (1 : Cq) else 0)) := by
  refine ⟨by simp, by simp, ?_⟩
  intro ra rb hra hrb
  rw [getD_map_range, if_pos (pair_encode_lt da db ra rb hra hrb)]
  rw [getD_map_range, if_pos (pair_encode_lt db da rb ra hrb hra)]
  by_cases h0 : ra = 0 ∧ rb = 0
  · obtain ⟨rfl, rfl⟩ := h0
    simp [Cq.conj_one]
  · rw [if_neg (pair_index_ne_zero db ra rb hrb h0)]
    rw [if_neg (pair_index_ne_zero da rb ra hra (fun hc => h0 ⟨hc.2, hc.1⟩))]
    rw [Cq.conj_zero]

theorem repGram_init (d : ℕ) :
    RepGram d ((List.range (d * d)).map (fun j => if j = 0 then (1 : Cq) else 0)) := by
  refine ⟨1, fun _ r => if r = 0 then 1 else 0, by simp, ?_⟩
  intro ra rb hra hrb
  rw [getD_map_range, if_pos (pair_encode_lt d d ra rb hra hrb)]
  rw [Finset.sum_range_one]
  by_cases h0 : ra = 0 ∧ rb = 0
  · obtain ⟨rfl, rfl⟩ := h0
    simp [Cq.conj_one]
  · rw [if_neg (pair_index_ne_zero d ra rb hrb h0)]
    beta_reduce
    by_cases hra0 : ra = 0
    · have hrb0 : rb ≠ 0 := fun hc => h0 ⟨hra0, hc⟩
      rw [if_neg hrb0, mul_zero]
    · rw [if_neg hra0, Cq.conj_zero, zero_mul]

/-- C8: for well-formed MPS of equal length, `overlap a b` is the complex
conjugate of `overlap b a`; and `overlap a a` is real and non-negative. -/
theorem overlap_conj_symm_nonneg :
    (∀ (a b : MPS), a.wf → b.wf → a.sites.length = b.sites.length →
      overlap a b = (overlap b a).map Cq.conj) ∧
    (∀ a : MPS, a.wf → ∃ q : ℚ, 0 ≤ q ∧ overlap a a = some (Cq.mk q 0)) := by
  constructor
  · intro a b hwa hwb hlen
    have hane : a.sites ≠ [] := by
      intro hnil
      have := hwa.1
      rw [hnil] at this
      exact absurd this (by simp)
    have hbne : b.sites ≠ [] := by
      intro hnil
      have := hwb.1
      rw [hnil] at this
      exact absurd this (by simp)
    rw [overlap_eq a b ⟨hlen, hane⟩, overlap_eq b a ⟨hlen.symm, hbne⟩]
    rw [Option.map_some']
    rw [Option.some.injEq]
    have hca : chainFrom (a.site 0).dl a.sites := by
      rw [hwa.2.1]
      exact chainFrom_of_wf a hwa
    have hcb : chainFrom (b.site 0).dl b.sites := by
      rw [hwb.2.1]
      exact chainFrom_of_wf b hwb
    obtain ⟨d1, d2, hm⟩ := mirror_run a.sites b.sites (a.site 0).dl (b.site 0).dl
      _ _ hlen hca hcb (mirror_init (a.site 0).dl (b.site 0).dl)
    exact mirror_sum d1 d2 _ _ hm
  · intro a hwa
    have hane : a.sites ≠ [] := by
      intro hnil
      have := hwa.1
      rw [hnil] at this
      exact absurd this (by simp)
    rw [overlap_eq a a ⟨rfl, hane⟩]
    have hca : chainFrom (a.site 0).dl a.sites := by
      rw [hwa.2.1]
      exact chainFrom_of_wf a hwa
    obtain ⟨d', hrep⟩ := repGram_run a.sites (a.site 0).dl _ hca
      (repGram_init (a.site 0).dl)
    obtain ⟨hre, him⟩ := repGram_sum d' _ hrep
    refine ⟨_, hre, ?_⟩
    rw [Option.some.injEq]
    refine (?_ : _ = Cq.mk _ _).symm.trans rfl
    rw [← him]

/-- C8 witness: on the one-qubit product state, both conjuncts hold
concretely. -/
theorem overlap_conj_symm_nonneg_witness :
    (MPS.new_zero 1).wf ∧
    (MPS.new_zero 1).sites.length = (MPS.new_zero 1).sites.length ∧
    overlap (MPS.new_zero 1) (MPS.new_zero 1) =
      (overlap (MPS.new_zero 1) (MPS.new_zero 1)).map Cq.conj ∧
    (∃ q : ℚ, 0 ≤ q ∧ overlap (MPS.new_zero 1) (MPS.new_zero 1) = some (Cq.mk q 0)) :=
  ⟨by decide, rfl,
    overlap_conj_symm_nonneg.1 (MPS.new_zero 1) (MPS.new_zero 1)
      (by decide) (by decide) rfl,
    overlap_conj_symm_nonneg.2 (MPS.new_zero 1) (by decide)⟩
